import Mathlib

/-!
Verification of the dynami DynamoDB client library.

This file gives a shallow embedding, in Lean 4, of the parts of the
library that the verified claims are about:

* the filter-expression compiler (`client_query.go`): the term-shape
  matchers built on Go regexes, the parser dispatch loop, placeholder
  accounting and attribute-name rewriting (`parseExpression` and friends);
* the fluent `Query` builder and its `Run` planner (`client_query.go`);
* the sequence-number order and shard listing of the stream consumer
  (`client_stream.go`);
* key resolution (`utils.go`: `getKey`, `getPrimaryKey`, `getSecondaryKey`);
* the batch coordinator (`batch.go`: `batchOp` with `addItems`,
  `isEmpty`, `collectItems`, `processItems`, `flushUnproc`) and
  `BatchDelete.Run` (`client_delete.go`).

External collaborators (the AWS transport and the attribute codec
`dbattribute.ConvertTo`/`ConvertToMap`) are modelled as total functions,
as the spec treats them as out-of-scope capabilities.  Go strings are
modelled as Lean `String`s (the library only ever feeds them ASCII).

The regular expressions of the source are hand-compiled to executable
matchers with Go's leftmost-first (Perl-style) match semantics:
greedy `.+` groups (a `.` matches anything but a newline), the single
whitespace class for a Go regex, and unanchored search that tries start
positions left to right.
-/

namespace Dynami

/-- The whitespace class a Go regex means by one whitespace character. -/
def wsChar (c : Char) : Bool :=
  c = ' ' || c = '\t' || c = '\n' || c = '\x0c' || c = '\r'

/-- What `.` matches in a Go regex: any character except a newline. -/
def dotChar (c : Char) : Bool := c ≠ '\n'

/-- A candidate capture for a greedy `.+` group: nonempty, no newline. -/
def dotGroup (s : List Char) : Bool := !s.isEmpty && s.all dotChar

/-- The character at position `i`, if any, satisfies `p`. -/
def charAt (s : List Char) (i : Nat) (p : Char → Bool) : Bool :=
  match s[i]? with
  | some c => p c
  | none => false

/-- The literal `lit` occurs in `s` starting at position `i`. -/
def litAt (s : List Char) (i : Nat) (lit : List Char) : Bool :=
  (s.drop i).take lit.length == lit

/-- The maximal run of `.`-matchable characters starting at `j`. -/
def dotRun (s : List Char) (j : Nat) : List Char :=
  (s.drop j).takeWhile dotChar

/-- The slice `s[a..b)`. -/
def slice (s : List Char) (a b : Nat) : List Char :=
  (s.drop a).take (b - a)

/-- First `some` produced by `f` over a list (backtracking search order). -/
def firstSome (l : List α) (f : α → Option β) : Option β :=
  match l with
  | [] => none
  | a :: rest =>
    match f a with
    | some b => some b
    | none => firstSome rest f

/-- Candidate end positions for a greedy group, longest first:
`n-1, n-2, ..., lo`. -/
def descRange (lo n : Nat) : List Nat :=
  ((List.range n).filter (fun i => lo ≤ i)).reverse

/-- Candidate start positions for an unanchored match, leftmost first. -/
def ascRange (n : Nat) : List Nat := List.range n

/-- The comparator alternatives of `reComp`, in the order the regex
alternation tries them. -/
def compOps : List (List Char) :=
  [['>', '='], ['>'], ['='], ['<'], ['<', '=']]

/-- Matcher for `reComp`, the Go regex
`(.+)\s(?:>=|>|=|<|<=)\s(.+)`: capture group 1 and group 2 of the
leftmost-first match, if any. -/
def compMatch (s : List Char) : Option (List Char × List Char) :=
  firstSome (ascRange s.length) fun p =>
    firstSome (descRange (p + 1) s.length) fun i =>
      if dotGroup (slice s p i) && charAt s i wsChar then
        firstSome compOps fun op =>
          if litAt s (i + 1) op && charAt s (i + 1 + op.length) wsChar then
            let g2 := dotRun s (i + 2 + op.length)
            if g2.isEmpty then none else some (slice s p i, g2)
          else none
      else none

/-- Matcher for `reBetween`, the Go regex
`(.+)\sBETWEEN\s(.+)\s&\s(.+)` (the source rewrites the `AND` of a
BETWEEN clause to `&` before this regex runs). -/
def betweenMatch (s : List Char) :
    Option (List Char × List Char × List Char) :=
  firstSome (ascRange s.length) fun p =>
    firstSome (descRange (p + 1) s.length) fun i =>
      if dotGroup (slice s p i) && charAt s i wsChar &&
          litAt s (i + 1) ['B', 'E', 'T', 'W', 'E', 'E', 'N'] &&
          charAt s (i + 8) wsChar then
        let j := i + 9
        firstSome (descRange (j + 1) s.length) fun k =>
          if dotGroup (slice s j k) && charAt s k wsChar &&
              litAt s (k + 1) ['&'] && charAt s (k + 2) wsChar then
            let g3 := dotRun s (k + 3)
            if g3.isEmpty then none
            else some (slice s p i, slice s j k, g3)
          else none
      else none

/-- Matcher for `reIn`, the Go regex `(.+)\sIN\s\((.+)\)`. -/
def inMatch (s : List Char) : Option (List Char × List Char) :=
  firstSome (ascRange s.length) fun p =>
    firstSome (descRange (p + 1) s.length) fun i =>
      if dotGroup (slice s p i) && charAt s i wsChar &&
          litAt s (i + 1) ['I', 'N'] && charAt s (i + 3) wsChar &&
          litAt s (i + 4) ['('] then
        let run := dotRun s (i + 5)
        firstSome (descRange 1 run.length) fun k =>
          if charAt run k (· = ')') then some (slice s p i, run.take k)
          else none
      else none

/-- Matcher for `reFunc`, the Go regex `(.+)\((.+)\)`. -/
def funcMatch (s : List Char) : Option (List Char × List Char) :=
  firstSome (ascRange s.length) fun p =>
    firstSome (descRange (p + 1) s.length) fun i =>
      if dotGroup (slice s p i) && litAt s i ['('] then
        let run := dotRun s (i + 1)
        firstSome (descRange 1 run.length) fun k =>
          if charAt run k (· = ')') then some (slice s p i, run.take k)
          else none
      else none

/-- One replacement step of `reAndRepl`, the Go regex
`(:[^\s]+\s)(AND)(\s:)`: if a match starts at the head of `s`, return
the replacement text `$1&$3` together with the rest of the input after
the whole match. -/
def andReplAt (s : List Char) : Option (List Char × List Char) :=
  match s with
  | ':' :: rest =>
    let run := rest.takeWhile (fun c => !wsChar c)
    if run.isEmpty then none
    else
      let after := rest.drop run.length
      match after with
      | w1 :: 'A' :: 'N' :: 'D' :: w2 :: ':' :: tail =>
        if wsChar w1 && wsChar w2 then
          some (':' :: run ++ [w1, '&', w2, ':'], tail)
        else none
      | _ => none
  | _ => none

/-- Model of `reAndRepl.ReplaceAllString(s, "$1&$3")`: scan left to right,
replacing successive non-overlapping matches. -/
def andReplGo (fuel : Nat) (s : List Char) : List Char :=
  match fuel, s with
  | 0, s => s
  | _, [] => []
  | fuel + 1, c :: rest =>
    match andReplAt (c :: rest) with
    | some (repl, tail) => repl ++ andReplGo fuel tail
    | none => c :: andReplGo fuel rest

/-- The `AND`-inside-`BETWEEN` rewriting pass of `parseExpression`. -/
def replaceBetweenAnd (s : String) : String :=
  (andReplGo s.toList.length s.toList).asString

/-- The distinguishable error values of the library (`fmt.Errorf` values
and the `errNoMatch` sentinel).  Where a Go error message interpolates
data, the constructor carries that data. -/
inductive DynErr where
  | errNoMatch
  | invalidExpr (expr : String)
  | invalidFuncExpr (funcName : String)
  | unknownFuncExpr (funcName : String)
  | invalidExpression
  | duplicatePlaceholder (ph : String)
  | inadequateValues
  | invalidPlaceholder (ph : String)
  | emptyTableName
  | limitNotPositive
  | incompletePrimaryKey
  | noValidKey
  deriving DecidableEq, Repr

/-- Propositional equality on `Except` results is decidable when it is
on both components (used to evaluate the model on concrete inputs). -/
instance [DecidableEq ε] [DecidableEq α] : DecidableEq (Except ε α) := fun a b =>
  match a, b with
  | .ok x, .ok y => decidable_of_iff (x = y) (by simp)
  | .error x, .error y => decidable_of_iff (x = y) (by simp)
  | .ok _, .error _ => isFalse (by simp)
  | .error _, .ok _ => isFalse (by simp)

/-- A native value supplied for an expression placeholder.  The codec
(`dbattribute.ConvertTo`) is an external collaborator; strings cover
what the claims need. -/
abbrev Val := String

/-- A converted `dynamodb.AttributeValue`. -/
abbrev AttrVal := String

/-- Model of `dbattribute.ConvertTo`, modelled as the spec directs: an external
total codec capability. -/
def convertTo (v : Val) : Except DynErr AttrVal := .ok v

/-- Index of the first occurrence of `pat` in `s` (an empty `pat`
matches at 0), if any. -/
def findSub (s pat : List Char) : Option Nat :=
  match s with
  | [] => if pat.isEmpty then some 0 else none
  | _ :: rest =>
    if litAt s 0 pat then some 0
    else (findSub rest pat).map (· + 1)

/-- Model of `strings.Split` on a nonempty separator: split around each
non-overlapping occurrence, left to right. -/
def splitOnChars (sep : List Char) : Nat → List Char → List (List Char)
  | 0, s => [s]
  | fuel + 1, s =>
    match findSub s sep with
    | none => [s]
    | some i => s.take i :: splitOnChars sep fuel (s.drop (i + sep.length))

/-- Model of `strings.Split(s, sep)` (the library never passes an empty
separator). -/
def splitOnStr (s sep : String) : List String :=
  if sep.toList.isEmpty then [s]
  else (splitOnChars sep.toList (s.toList.length + 1) s.toList).map List.asString

/-- Model of `strings.Replace(s, pat, repl, -1)` on a nonempty pattern: replace
each non-overlapping occurrence, left to right, never rescanning the
replacement text. -/
def replaceChars (pat repl : List Char) : Nat → List Char → List Char
  | 0, s => s
  | fuel + 1, s =>
    match findSub s pat with
    | none => s
    | some i =>
      s.take i ++ repl ++ replaceChars pat repl fuel (s.drop (i + pat.length))

/-- Model of `strings.Replace(s, pat, repl, -1)`. -/
def replaceAllStr (s pat repl : String) : String :=
  if pat.toList.isEmpty then s
  else (replaceChars pat.toList repl.toList (s.toList.length + 1) s.toList).asString

/-- The whitespace `strings.TrimSpace` strips (its ASCII part). -/
def trimChar (c : Char) : Bool := wsChar c || c = '\x0b'

/-- Model of `strings.TrimSpace`. -/
def trimStr (s : String) : String :=
  ((s.toList.dropWhile trimChar).reverse.dropWhile trimChar).reverse.asString

/-- Model of `strings.TrimLeft(s, "(")`. -/
def trimLeftP (s : String) : String :=
  (s.toList.dropWhile (· = '(')).asString

/-- Model of `strings.TrimRight(s, ")")`. -/
def trimRightP (s : String) : String :=
  (s.toList.reverse.dropWhile (· = ')')).reverse.asString

/-- Model of `splitCSV`: split on commas and trim whitespace around each part. -/
def splitCSV (s : String) : List String :=
  (splitOnStr s ",").map trimStr

/-- Model of `parseCompExpr`: comparator terms `attr OP :v`, with a `size(...)`
wrapper on the left operand handled specially. -/
def parseCompExpr (expr : String) : Except DynErr (String × List String) :=
  match compMatch expr.toList with
  | none => .error .errNoMatch
  | some (m1, m2) =>
    let attrName := trimLeftP m1.asString
    match funcMatch attrName.toList with
    | some (f1, f2) =>
      if f1.asString = "size" then .ok (f2.asString, [trimRightP m2.asString])
      else .error (.invalidExpr expr)
    | none => .ok (attrName, [trimRightP m2.asString])

/-- Model of `parseBetweenExpr`: `attr BETWEEN :lo & :hi` terms (after the
`AND`-to-`&` rewriting). -/
def parseBetweenExpr (expr : String) : Except DynErr (String × List String) :=
  match betweenMatch expr.toList with
  | none => .error .errNoMatch
  | some (m1, m2, m3) =>
    .ok (trimLeftP m1.asString, [m2.asString, trimRightP m3.asString])

/-- Model of `parseInExpr`: `attr IN (:a, :b, ...)` terms. -/
def parseInExpr (expr : String) : Except DynErr (String × List String) :=
  match inMatch expr.toList with
  | none => .error .errNoMatch
  | some (m1, m2) =>
    .ok (trimLeftP m1.asString, splitCSV (trimRightP m2.asString))

/-- Model of `parseFuncExpr`: function-call terms
(`attribute_exists`, `attribute_not_exists`, `attribute_type`,
`begins_with`, `contains`). -/
def parseFuncExpr (expr : String) : Except DynErr (String × List String) :=
  match funcMatch expr.toList with
  | none => .error .errNoMatch
  | some (m1, m2) =>
    let funcName := trimLeftP m1.asString
    if funcName = "attribute_exists" || funcName = "attribute_not_exists" then
      .ok (trimRightP m2.asString, [])
    else if funcName = "attribute_type" || funcName = "begins_with" ||
        funcName = "contains" then
      match splitCSV (trimRightP m2.asString) with
      | [a, v] => .ok (a, [v])
      | _ => .error (.invalidFuncExpr funcName)
    else .error (.unknownFuncExpr funcName)

/-- The term-shape parser list `exprParser` of the source, in source
order: comparison, between, in, function call. -/
def exprParser : List (String → Except DynErr (String × List String)) :=
  [parseCompExpr, parseBetweenExpr, parseInExpr, parseFuncExpr]

/-- The term-shape parser list in the priority order the spec asserts:
function call, between, in, comparison.  Modelled from the spec's words
for comparison with `exprParser`. -/
def exprParserSpecOrder :
    List (String → Except DynErr (String × List String)) :=
  [parseFuncExpr, parseBetweenExpr, parseInExpr, parseCompExpr]

/-- The dispatch loop of `parseExpression`: try each parser in turn,
accept the first that does not report `errNoMatch` (a hard error from a
structurally matching parser aborts the loop). -/
def tryParsers (ps : List (String → Except DynErr (String × List String)))
    (s : String) : Except DynErr (String × List String) :=
  match ps with
  | [] => .error .errNoMatch
  | p :: rest =>
    match p s with
    | .ok r => .ok r
    | .error e => if e = .errNoMatch then tryParsers rest s else .error e

/-- Term dispatch including `parseExpression`'s mapping of the
exhausted-parsers case to the invalid-expression error. -/
def dispatchTerm (ps : List (String → Except DynErr (String × List String)))
    (s : String) : Except DynErr (String × List String) :=
  match tryParsers ps s with
  | .error .errNoMatch => .error .invalidExpression
  | r => r

/-- Model of `strings.Replace(s, pat, repl, 1)`: replace the first occurrence. -/
def replaceFirst (s pat repl : String) : String :=
  match findSub s.toList pat.toList with
  | none => s
  | some i =>
    ((s.toList.take i) ++ repl.toList ++
      (s.toList.drop (i + pat.toList.length))).asString

/-- An attribute-name placeholder pair (placeholder, actual name). -/
structure AttrName where
  placeholder : String
  value : String
  deriving DecidableEq, Repr

/-- An attribute-value placeholder pair (placeholder, converted value). -/
structure AttrValue where
  placeholder : String
  value : AttrVal
  deriving DecidableEq, Repr

/-- Model of `parseExprAttrName`: rewrite each `.`-separated segment of the
attribute path to a fresh name placeholder in `expr`, pairing each
placeholder with the segment it stands for. -/
def parseExprAttrName (expr : String) (exprAttrName : String) :
    String × List AttrName :=
  let names := splitOnStr exprAttrName "."
  names.foldl
    (fun (acc : String × List AttrName) n =>
      let ph := "#" ++ n ++ "_PH"
      (replaceFirst acc.1 n ph, acc.2 ++ [⟨ph, n⟩]))
    (expr, [])

/-- The pairing loop of `parseExprAttrValue`: a placeholder not
starting with `:` is the invalid-value-placeholder error (the source
indexes byte 0, so an empty placeholder, which would panic in Go, is
mapped to the same error). -/
def parseAttrValLoop : List String → List Val → Except DynErr (List AttrValue)
  | [], _ => .ok []
  | ph :: rest, vals =>
    match ph.toList with
    | ':' :: _ =>
      match vals with
      | [] => .error .inadequateValues
      | v :: vrest =>
        match convertTo v with
        | .error e => .error e
        | .ok attr =>
          match parseAttrValLoop rest vrest with
          | .error e => .error e
          | .ok tail => .ok (⟨ph, attr⟩ :: tail)
    | _ => .error (.invalidPlaceholder ph)

/-- Model of `parseExprAttrValue`: pair each value placeholder with the next
supplied value; fewer values than placeholders is the
inadequate-expression-values error. -/
def parseExprAttrValue (placeholder : List String) (values : List Val) :
    Except DynErr (List AttrValue) :=
  if placeholder.length > values.length then .error .inadequateValues
  else parseAttrValLoop placeholder values

/-- The accumulating state threaded through `parseExpression`:
seen value placeholders, collected name and value pairs, and the
remaining supplied values. -/
structure PState where
  vphs : List String
  attrNames : List AttrName
  attrValues : List AttrValue
  values : List Val
  deriving Repr

/-- The duplicate-value-placeholder check of `parseExpression`: each
placeholder of the current term is looked up in, then added to, the set
of placeholders seen so far. -/
def checkDups (vphs : List String) (phs : List String) :
    Except DynErr (List String) :=
  match phs with
  | [] => .ok vphs
  | ph :: rest =>
    if ph ∈ vphs then .error (.duplicatePlaceholder ph)
    else checkDups (vphs ++ [ph]) rest

/-- Processing of one `OR`-level term inside `parseExpression`:
strip `NOT `, dispatch the term-shape parsers, check duplicates,
rewrite attribute names, and consume values for the placeholders.
Returns the rewritten term and the updated state. -/
def processOr (st : PState) (orExpr : String) :
    Except DynErr (String × PState) :=
  let subExpr := replaceAllStr orExpr "NOT " ""
  match dispatchTerm exprParser subExpr with
  | .error e => .error e
  | .ok (attrName, vph) =>
    match checkDups st.vphs vph with
    | .error e => .error e
    | .ok vphs =>
      let (e, attrNames) := parseExprAttrName orExpr attrName
      match parseExprAttrValue vph st.values with
      | .error err => .error err
      | .ok attrValues =>
        .ok (e, { vphs := vphs,
                  attrNames := st.attrNames ++ attrNames,
                  attrValues := st.attrValues ++ attrValues,
                  values := st.values.drop attrValues.length })

/-- Fold `processOr` over the terms of one `AND` group. -/
def processOrList (st : PState) (ors : List String) :
    Except DynErr (List String × PState) :=
  match ors with
  | [] => .ok ([], st)
  | t :: rest =>
    match processOr st t with
    | .error e => .error e
    | .ok (e, st') =>
      match processOrList st' rest with
      | .error e => .error e
      | .ok (es, st'') => .ok (e :: es, st'')

/-- Fold the per-`AND`-group processing over all groups. -/
def processAndList (st : PState) (ands : List (List String)) :
    Except DynErr (List (List String) × PState) :=
  match ands with
  | [] => .ok ([], st)
  | g :: rest =>
    match processOrList st g with
    | .error e => .error e
    | .ok (es, st') =>
      match processAndList st' rest with
      | .error e => .error e
      | .ok (gs, st'') => .ok (es :: gs, st'')

/-- The compiled form of a filter expression: the rewritten expression
text and the placeholder pairs, as in the source's `exprValue`. -/
structure ExprValue where
  expr : String
  attrNames : List AttrName
  attrValues : List AttrValue
  deriving DecidableEq, Repr

/-- Model of `parseExpression`: rewrite `AND` inside BETWEEN clauses to `&`,
split into `AND` groups and `OR` terms, process every term, rejoin, and
restore `&` to `AND`. -/
def parseExpression (expr : String) (values : List Val) :
    Except DynErr ExprValue :=
  let e := replaceBetweenAnd expr
  let groups := (splitOnStr e " AND ").map (splitOnStr · " OR ")
  match processAndList ⟨[], [], [], values⟩ groups with
  | .error err => .error err
  | .ok (gs, st) =>
    let joined := " AND ".intercalate (gs.map (" OR ".intercalate ·))
    .ok { expr := replaceAllStr joined "&" "AND",
          attrNames := st.attrNames,
          attrValues := st.attrValues }

/-- The `OR`-level terms of an expression, in processing order. -/
def termsOf (expr : String) : List String :=
  ((splitOnStr (replaceBetweenAnd expr) " AND ").map (splitOnStr · " OR ")).flatten

/-- The value placeholders a term contributes (empty if the term does
not parse). -/
def termVph (t : String) : List String :=
  match dispatchTerm exprParser (replaceAllStr t "NOT " "") with
  | .ok (_, vph) => vph
  | .error _ => []

/-- Total number of value placeholders a list of terms contains. -/
def vsum (ts : List String) : Nat :=
  (ts.map (fun t => (termVph t).length)).sum

/-- Total number of value placeholders the terms of an expression
contain. -/
def countPlaceholders (expr : String) : Nat :=
  vsum (termsOf expr)

/-!  The fluent `Query` builder and its `Run` planner. -/

/-- Look a key up in a Go map modelled as an association list. -/
def assocFind [DecidableEq κ] (m : List (κ × α)) (k : κ) : Option α :=
  match m with
  | [] => none
  | (k', v) :: rest => if k = k' then some v else assocFind rest k

/-- Insert into a Go map modelled as an association list: overwrite the
entry if the key is present, append otherwise. -/
def mapPut [DecidableEq κ] (m : List (κ × α)) (k : κ) (v : α) :
    List (κ × α) :=
  if (assocFind m k).isSome then
    m.map (fun p => if p.1 = k then (k, v) else p)
  else m ++ [(k, v)]

/-- Append one element to the list a Go map holds under `k`
(`m[k] = append(m[k], x)`). -/
def mapAppend [DecidableEq κ] (m : List (κ × List α)) (k : κ) (x : α) :
    List (κ × List α) :=
  mapPut m k ((assocFind m k).getD [] ++ [x])

/-- The `Query` struct of `client_query.go`.  `limit` is the Go `int`
(`-1` is the unbounded sentinel); the pointer maps are association
lists; the stored error is an `Option DynErr`. -/
structure Query where
  table : String := ""
  index : String := ""
  hashExpr : String := ""
  rangeExpr : String := ""
  nfilters : Nat := 0
  filterExpr : String := ""
  attributeNames : List (String × String) := []
  attributeValues : List (String × AttrVal) := []
  limit : Int := 0
  scanForward : Bool := false
  consistentRead : Bool := false
  err : Option DynErr := none
  deriving DecidableEq, Repr

/-- Model of `Client.Query`: a fresh query, or one carrying the empty-table-name
construction error. -/
def clientQuery (tableName : String) : Query :=
  if tableName = "" then { err := some .emptyTableName }
  else { table := tableName, limit := -1, scanForward := true,
         consistentRead := false }

/-- Model of `Query.Index`. -/
def Query.Index (q : Query) (indexName : String) : Query :=
  if q.err.isSome then q else { q with index := indexName }

/-- Model of `Query.Limit`: a non-positive limit stores the construction error. -/
def Query.Limit (q : Query) (limit : Int) : Query :=
  if q.err.isSome then q
  else if limit ≤ 0 then { q with err := some .limitNotPositive }
  else { q with limit := limit }

/-- Model of `Query.Desc` (note: the source does not gate this on `q.err`). -/
def Query.Desc (q : Query) : Query := { q with scanForward := false }

/-- Model of `Query.Consistent` (not gated on `q.err` either). -/
def Query.Consistent (q : Query) : Query := { q with consistentRead := true }

/-- Model of `Query.addAttributeName`. -/
def Query.addAttributeName (q : Query) (ph : String) (v : String) : Query :=
  { q with attributeNames := mapPut q.attributeNames ph v }

/-- Model of `Query.addAttributeValue`. -/
def Query.addAttributeValue (q : Query) (ph : String) (v : AttrVal) : Query :=
  { q with attributeValues := mapPut q.attributeValues ph v }

/-- Model of `Query.HashFilter`: `value` is `none` for Go's `nil` argument.
The codec conversion is the external total `convertTo`. -/
def Query.HashFilter (q : Query) (name : String) (value : Option Val) :
    Query :=
  if q.err.isSome then q
  else
    match value with
    | some v =>
      if name ≠ "" then
        let q := { q with hashExpr := "#H = :hv" }
        let q := q.addAttributeName "#H" name
        match convertTo v with
        | .error e => { q with err := some e }
        | .ok attr => q.addAttributeValue ":hv" attr
      else q
    | none => q

/-- Model of `Query.RangeFilter`: compiles the range expression and appends
`" AND "` plus the rewritten text to `rangeExpr`; skipped entirely when
the expression is empty or no values are supplied. -/
def Query.RangeFilter (q : Query) (expr : String) (values : List Val) :
    Query :=
  if q.err.isSome then q
  else if expr ≠ "" ∧ values.length > 0 then
    match parseExpression expr values with
    | .error e => { q with err := some e }
    | .ok v =>
      let q := { q with rangeExpr := " AND " ++ v.expr }
      let q := v.attrNames.foldl
        (fun q n => q.addAttributeName n.placeholder n.value) q
      v.attrValues.foldl
        (fun q a => q.addAttributeValue a.placeholder a.value) q
  else q

/-- Model of `Query.Filter`: compiles a post filter and `AND`-joins it onto the
accumulated filter expression. -/
def Query.Filter (q : Query) (expr : String) (values : List Val) : Query :=
  if q.err.isSome then q
  else if expr ≠ "" then
    match parseExpression expr values with
    | .error e => { q with err := some e }
    | .ok v =>
      let fe := (if q.nfilters > 0 then q.filterExpr ++ " AND "
                 else q.filterExpr) ++ v.expr
      let q := { q with filterExpr := fe, nfilters := q.nfilters + 1 }
      let q := v.attrNames.foldl
        (fun q n => q.addAttributeName n.placeholder n.value) q
      v.attrValues.foldl
        (fun q a => q.addAttributeValue a.placeholder a.value) q
  else q

/-- The request `Query.Run` hands to the transport's Query operation
(`dynamodb.QueryInput`; the empty string models a nil pointer field). -/
structure QueryInput where
  tableName : String
  indexName : String
  keyConditionExpression : String
  filterExpression : String
  expressionAttributeNames : List (String × String)
  expressionAttributeValues : List (String × AttrVal)
  limit : Int
  scanIndexForward : Bool
  consistentRead : Bool
  deriving DecidableEq, Repr

/-- The request `Query.Run` hands to the transport's Scan operation
(`dynamodb.ScanInput`). -/
structure ScanInput where
  tableName : String
  indexName : String
  filterExpression : String
  expressionAttributeNames : List (String × String)
  expressionAttributeValues : List (String × AttrVal)
  limit : Int
  consistentRead : Bool
  deriving DecidableEq, Repr

/-- What `Query.Run` does: short-circuit on a stored error (returning
the empty iterator, no network call), or issue exactly one Query or
Scan request. -/
inductive RunResult where
  | emptyIterator
  | queried (q : QueryInput)
  | scanned (s : ScanInput)
  deriving DecidableEq, Repr

/-- Model of `Query.Run`: a key-condition Query when a hash filter is present
(the range expression extends the key condition), otherwise a Scan
whose filter expression is the post filter with the range expression
appended. -/
def Query.Run (q : Query) : RunResult :=
  if q.err.isSome then .emptyIterator
  else if q.hashExpr ≠ "" then
    .queried { tableName := q.table, indexName := q.index,
               keyConditionExpression := q.hashExpr ++ q.rangeExpr,
               filterExpression := q.filterExpr,
               expressionAttributeNames := q.attributeNames,
               expressionAttributeValues := q.attributeValues,
               limit := q.limit, scanIndexForward := q.scanForward,
               consistentRead := q.consistentRead }
  else
    .scanned { tableName := q.table, indexName := q.index,
               filterExpression := q.filterExpr ++ q.rangeExpr,
               expressionAttributeNames := q.attributeNames,
               expressionAttributeValues := q.attributeValues,
               limit := q.limit, consistentRead := q.consistentRead }

/-- One chained configuration call on a `Query`, for quantifying over
arbitrary fluent chains. -/
inductive ConfigCall where
  | index (name : String)
  | limit (n : Int)
  | desc
  | consistent
  | hashFilter (name : String) (value : Option Val)
  | rangeFilter (expr : String) (values : List Val)
  | filter (expr : String) (values : List Val)

/-- Apply one configuration call. -/
def applyCall (q : Query) : ConfigCall → Query
  | .index n => q.Index n
  | .limit n => q.Limit n
  | .desc => q.Desc
  | .consistent => q.Consistent
  | .hashFilter n v => q.HashFilter n v
  | .rangeFilter e vs => q.RangeFilter e vs
  | .filter e vs => q.Filter e vs

/-- Apply a whole fluent chain, left to right. -/
def applyChain (q : Query) (calls : List ConfigCall) : Query :=
  calls.foldl applyCall q

/-!  The stream consumer: sequence-number order and shard listing
(`client_stream.go`).  A sequence number is an ASCII decimal string;
`seqNum.less` compares lengths first and falls back to Go's bytewise
string comparison, which on ASCII agrees with Lean's `String` order. -/

/-- Go's bytewise lexicographic string comparison (on the code points,
which agrees with the byte order for the ASCII decimal strings that
sequence numbers are). -/
def lexLt : List Char → List Char → Bool
  | [], [] => false
  | [], _ :: _ => true
  | _ :: _, [] => false
  | a :: as, b :: bs =>
    if a < b then true else if a = b then lexLt as bs else false

/-- Model of `seqNum.less` on present (non-nil) sequence numbers. -/
def seqLess (a b : String) : Bool :=
  if a.length ≠ b.length then a.length < b.length else lexLt a.toList b.toList

/-- The non-strict companion of `seqLess`, as a proposition: `a` does
not sort after `b`.  `sort.Sort(bySeqNum(...))` establishes exactly
this between neighbours. -/
def seqLe (a b : String) : Prop := seqLess b a = false

/-- A shard snapshot: id and starting sequence number (the open end of
the range does not matter for ordering). -/
structure Shard where
  id : String
  start : String
  deriving DecidableEq, Repr

/-- Model of `RecordIterator.getShards`: drop shards whose ids are already
marked processed, then sort ascending by starting sequence number with
`bySeqNum.Less` (Go's `sort.Sort` picks some ordered permutation; the
model uses insertion sort, which produces one). -/
def getShards (processed : String → Bool) (dbShards : List Shard) :
    List Shard :=
  let kept := dbShards.filter (fun s => !processed s.id)
  kept.insertionSort (fun a b => seqLess b.start a.start = false)

/-!  Key resolution (`utils.go`).  An item is modelled as a partial map
from attribute names to converted attribute values, where `none` stands
for an attribute whose field is a Go zero value (the reflection and the
codec that decide zero-ness are external).  A schema carries the
primary-key attribute names and the local and global secondary
indexes. -/

/-- An item: attribute name to converted value, `none` for zero. -/
abbrev Item := String → Option AttrVal

/-- A secondary index: name and key attribute names. -/
structure SecIndex where
  name : String
  keys : List String
  deriving DecidableEq, Repr

/-- A table schema, as `schema.GetSchema` reports it. -/
structure Schema where
  key : List String
  localIdx : List SecIndex
  globalIdx : List SecIndex

/-- The `indexType` constants. -/
inductive IndexKind where
  | localIndexType
  | globalIndexType
  deriving DecidableEq, Repr

/-- A resolved `dbkey`: the key attribute values, the index name
(empty for the primary key) and the index kind (`none` for the primary
key, where the source leaves the field at its zero value). -/
structure DbKey where
  value : List (String × AttrVal)
  indexName : String
  indexType : Option IndexKind
  deriving DecidableEq, Repr

/-- The key-collection loop of `getPrimaryKey`: the first zero-valued
key attribute aborts with the incomplete-primary-key error. -/
def primKeyLoop (item : Item) : List String → Except DynErr (List (String × AttrVal))
  | [] => .ok []
  | k :: rest =>
    match item k with
    | none => .error .incompletePrimaryKey
    | some v =>
      match primKeyLoop item rest with
      | .error e => .error e
      | .ok tail => .ok ((k, v) :: tail)

/-- Model of `getPrimaryKey`: every primary-key attribute must be non-zero; an
empty collected key is the no-valid-key error. -/
def getPrimaryKey (sch : Schema) (item : Item) : Except DynErr DbKey :=
  match primKeyLoop item sch.key with
  | .error e => .error e
  | .ok kvs =>
    if kvs.isEmpty then .error .noValidKey
    else .ok ⟨kvs, "", none⟩

/-- The index scan of `getSecondaryKey`: the first index (in list
order, position `i` tracked against the local/global marker) whose key
attributes are all non-zero wins. -/
def secKeyLoop (item : Item) (marker : Nat) :
    Nat → List SecIndex → Option DbKey
  | _, [] => none
  | i, idx :: rest =>
    if idx.keys.all (fun k => (item k).isSome) then
      some ⟨idx.keys.filterMap (fun k => (item k).map ((k, ·))),
            idx.name,
            some (if i ≥ marker then .globalIndexType else .localIndexType)⟩
    else secKeyLoop item marker (i + 1) rest

/-- Model of `getSecondaryKey`: scan local indexes then global ones; an empty
collected key (no index qualified, or the winning index had no key
attributes) is the no-valid-key error. -/
def getSecondaryKey (sch : Schema) (item : Item) : Except DynErr DbKey :=
  let marker := sch.localIdx.length
  match secKeyLoop item marker 0 (sch.localIdx ++ sch.globalIdx) with
  | none => .error .noValidKey
  | some k => if k.value.isEmpty then .error .noValidKey else .ok k

/-- Model of `getKey`: the primary key if it resolves, otherwise the first
non-empty secondary key. -/
def getKey (sch : Schema) (item : Item) : Except DynErr DbKey :=
  match getPrimaryKey sch item with
  | .ok k => .ok k
  | .error _ => getSecondaryKey sch item

/-!  The batch coordinator (`batch.go`).  An input item is modelled by
the outcome of its primary-key resolution (`none` when `getPrimaryKey`
fails) plus its full payload; a wire payload (`dbitem`) carries the
key material `getIndexKey` reads back plus the non-key attributes,
which are dropped for keys-only batches.  `getIndexKey`'s gob-encoded
`ikey` string is modelled by the (table, key) pair it encodes. -/

/-- The string `getIndexKey` builds: table plus key values. -/
abbrev IKey := String × String

/-- A wire payload (`dbitem`): its key material and its non-key data
(empty for keys-only payloads). -/
structure PL where
  key : String
  data : String
  deriving DecidableEq, Repr

/-- An input element of a batch slice. -/
structure InItem where
  key : Option String
  data : String
  deriving DecidableEq, Repr

/-- The `dbitem` stored for an input item: just the key for keys-only
operations (deletes, gets), the converted full item otherwise. -/
def mkPL (keysOnly : Bool) (k : String) (data : String) : PL :=
  if keysOnly then ⟨k, ""⟩ else ⟨k, data⟩

/-- The `batchOp` struct. `unpCount` is a Go `int`. -/
structure BatchOp where
  itemIdxs : List (IKey × List Nat)
  unproc : List (String × List (Option PL))
  unprocIdxs : List (IKey × List Nat)
  unpCount : Int
  errs : List ((String × Nat) × DynErr)
  deriving DecidableEq, Repr

/-- Model of `newBatchOp`. -/
def newBatchOp : BatchOp := ⟨[], [], [], 0, []⟩

/-- The accumulator of the main loop of `addItems`. -/
structure AddAcc where
  itemIdxs : List (IKey × List Nat)
  unprocIdxs : List (IKey × List Nat)
  dups : List (IKey × List Nat)
  errs : List ((String × Nat) × DynErr)
  slots : List (Option PL)
  deriving Repr

/-- The per-item loop of `addItems`: items whose primary key did not
resolve are recorded as per-index errors (their slot stays nil); the
rest register their index under their key and store their payload. -/
def addLoop (table : String) (keysOnly : Bool) :
    Nat → List InItem → AddAcc → AddAcc
  | _, [], acc => acc
  | i, it :: rest, acc =>
    match it.key with
    | none =>
      addLoop table keysOnly (i + 1) rest
        { acc with errs := mapPut acc.errs (table, i) .incompletePrimaryKey,
                   slots := acc.slots ++ [none] }
    | some k =>
      let ik : IKey := (table, k)
      addLoop table keysOnly (i + 1) rest
        { itemIdxs := mapAppend acc.itemIdxs ik i,
          unprocIdxs := mapAppend acc.unprocIdxs ik i,
          dups := mapAppend acc.dups ik i,
          errs := acc.errs,
          slots := acc.slots ++ [some (mkPL keysOnly k it.data)] }

/-- The duplicate pass of `addItems` for one key's index list: nil out
every occurrence, then restore the last one to its own payload (the
indices of one key are distinct, so reading the restored value from
the pre-pass slots is what the source's loop-carried read does). -/
def nilDups (slots : List (Option PL)) (idxs : List Nat) :
    List (Option PL) :=
  match idxs.getLast? with
  | none => slots
  | some last =>
    (idxs.foldl (fun s j => s.set j none) slots).set last
      (slots.getD last none)

/-- Model of `batchOp.addItems` for one table's slice. -/
def addItems (b : BatchOp) (table : String) (items : List InItem)
    (keysOnly : Bool) : BatchOp :=
  if items.isEmpty then b
  else
    let acc := addLoop table keysOnly 0 items
      ⟨b.itemIdxs, b.unprocIdxs, [], b.errs, []⟩
    let slots := acc.dups.foldl (fun s e => nilDups s e.2) acc.slots
    { itemIdxs := acc.itemIdxs,
      unproc := mapPut b.unproc table slots,
      unprocIdxs := acc.unprocIdxs,
      unpCount := b.unpCount + items.length,
      errs := acc.errs }

/-- Model of `batchOp.isEmpty`: scan the tables, deleting empty entries, and
stop false at the first nonempty one (the scan order of a Go map is
modelled by list order). -/
def isEmptyLoop (l : List (String × List (Option PL))) :
    Bool × List (String × List (Option PL)) :=
  match l with
  | [] => (true, [])
  | (t, items) :: rest =>
    if items.isEmpty then isEmptyLoop rest
    else (false, (t, items) :: rest)

/-- Model of `batchOp.isEmpty` with its pruning side effect on `unproc`. -/
def isEmptyOp (b : BatchOp) : Bool × BatchOp :=
  let (e, l) := isEmptyLoop b.unproc
  (e, { b with unproc := l })

/-- The mutable locals of the `Collect` loop. -/
structure CollSt where
  acc : List (String × List PL)
  nitems : Int
  unpCount : Int
  deriving DecidableEq, Repr

/-- One table's inner loop of `collectItems`: walk the slot snapshot,
counting every slot against `unpCount` and appending non-nil payloads,
until the batch is full (`nitems = bs`), everything is consumed
(`unpCount = 0`), or the per-table share `ipt` is reached.  Returns
the state, how many slots were consumed (the source's `i+1` trim), and
whether the labelled `Collect` loop should stop. -/
def visitTable (bs ipt : Int) (table : String) :
    Nat → List (Option PL) → CollSt → CollSt × Nat × Bool
  | i, [], st => (st, i, false)
  | i, slot :: rest, st =>
    let st := { st with unpCount := st.unpCount - 1 }
    let st :=
      match slot with
      | some item =>
        { st with acc := mapAppend st.acc table item,
                  nitems := st.nitems + 1 }
      | none => st
    if st.nitems = bs ∨ st.unpCount = 0 then (st, i + 1, true)
    else if ipt ≤ (i : Int) + 1 then (st, i + 1, false)
    else visitTable bs ipt table (i + 1) rest st

/-- One pass of the `Collect` loop over the remaining tables. -/
def passTables (bs ipt : Int) :
    List (String × List (Option PL)) → List (String × List (Option PL)) →
    CollSt → CollSt × List (String × List (Option PL)) × Bool
  | [], done, st => (st, done, false)
  | (t, slots) :: rest, done, st =>
    let (st', visited, brk) := visitTable bs ipt t 0 slots st
    let entry := (t, slots.drop visited)
    if brk then (st', done ++ entry :: rest, true)
    else passTables bs ipt rest (done ++ [entry]) st'

/-- The outer `for` of the `Collect` loop: repeat passes until a break.
The fuel covers every terminating run of the source (each pass on a
consistent state consumes at least one slot); a state on which the
source would loop forever is cut off at zero fuel. -/
def collectLoop (bs ipt : Int) :
    Nat → List (String × List (Option PL)) → CollSt →
    CollSt × List (String × List (Option PL))
  | 0, tables, st => (st, tables)
  | fuel + 1, tables, st =>
    let (st', tables', brk) := passTables bs ipt tables [] st
    if brk then (st', tables')
    else collectLoop bs ipt fuel tables' st'

/-- Model of `batchOp.collectItems`: reduce the batch budget by the entries
already carried in `unproc`, split the remainder evenly over the
tables, and run the `Collect` loop. -/
def collectItems (b : BatchOp) (batchSize : Int)
    (unproc : List (String × List PL)) :
    List (String × List PL) × BatchOp :=
  if b.unpCount = 0 then (unproc, b)
  else
    let bs := batchSize - (unproc.map (fun p => (p.2.length : Int))).sum
    let ipt := max (Int.tdiv bs (b.unproc.length : Int)) 1
    let fuel := (b.unproc.map (fun p => p.2.length)).sum + 1
    let (st, tables) := collectLoop bs ipt fuel b.unproc ⟨unproc, 0, b.unpCount⟩
    (st.acc, { b with unproc := tables, unpCount := st.unpCount })

/-- Membership in the unprocessed-key set `processItems` builds. -/
def inUnproc (unprocessed : List (String × List PL)) (ik : IKey) : Bool :=
  unprocessed.any (fun p => p.2.any (fun item => (p.1, item.key) = ik))

/-- The callback fan-out of `processItems` for one successfully
processed item: apply `fproc` to every original input index registered
under the item's key, collecting per-index errors, and record each
application. -/
def fanOut (table : String) (item : PL) (idxs : List Nat)
    (fproc : String → Nat → PL → Option DynErr)
    (errs : List ((String × Nat) × DynErr))
    (applied : List (String × Nat × PL)) :
    List ((String × Nat) × DynErr) × List (String × Nat × PL) :=
  match idxs with
  | [] => (errs, applied)
  | idx :: rest =>
    let errs :=
      match fproc table idx item with
      | some e => mapPut errs (table, idx) e
      | none => errs
    fanOut table item rest fproc errs (applied ++ [(table, idx, item)])

/-- One iteration of the inner loop of `processItems`, for one
collected item: an item absent from the unprocessed response is
removed from the pending-retry index and, when a callback is present,
fanned out to every input index registered under its key. -/
def procStep (unprocessed : List (String × List PL))
    (fproc : Option (String → Nat → PL → Option DynErr)) (table : String)
    (st : BatchOp × List (String × Nat × PL)) (item : PL) :
    BatchOp × List (String × Nat × PL) :=
  let (b, applied) := st
  let ik : IKey := (table, item.key)
  if inUnproc unprocessed ik then (b, applied)
  else
    let b := { b with unprocIdxs := b.unprocIdxs.filter (fun p => p.1 ≠ ik) }
    match fproc with
    | none => (b, applied)
    | some f =>
      let (errs, applied) :=
        fanOut table item ((assocFind b.itemIdxs ik).getD []) f b.errs applied
      ({ b with errs := errs }, applied)

/-- Model of `batchOp.processItems`: every collected item whose key is
absent from the unprocessed response is removed from the pending-retry
index and, when a callback is present, fanned out to every input index
sharing its key.  The list of callback applications is returned
alongside the updated state (the shallow embedding of the callback's
side effects). -/
def processItems (b : BatchOp) (collected unprocessed : List (String × List PL))
    (fproc : Option (String → Nat → PL → Option DynErr)) :
    BatchOp × List (String × Nat × PL) :=
  collected.foldl
    (fun st p => p.2.foldl (procStep unprocessed fproc p.1) st)
    (b, [])

/-- The error-marking fold of `flushUnproc`. -/
def flushErrs (e : DynErr) (errs : List ((String × Nat) × DynErr))
    (pending : List (IKey × List Nat)) : List ((String × Nat) × DynErr) :=
  pending.foldl
    (fun errs p => p.2.foldl (fun errs idx => mapPut errs (p.1.1, idx) e) errs)
    errs

/-- Model of `batchOp.flushUnproc`: mark every still-pending index erroneous. -/
def flushUnproc (b : BatchOp) (e : DynErr) : BatchOp :=
  { b with errs := flushErrs e b.errs b.unprocIdxs }

/-- Model of `batchOp.errors`: `none` means full success. -/
def errorsOf (b : BatchOp) : Option (List ((String × Nat) × DynErr)) :=
  if b.errs.isEmpty then none else some b.errs

/-- What one iteration of `BatchDelete.Run`'s loop does.  A transport
is the batch-write network call: it receives the collected payload map
and answers with the unprocessed remainder (or a transport error). -/
inductive LoopStep where
  | done (r : Option (List ((String × Nat) × DynErr)))
  | failed (e : DynErr)
  | next (op : BatchOp) (citems : List (String × List PL))
  deriving DecidableEq, Repr

/-- The body of the retry loop of `BatchDelete.Run` (`client_delete.go`
lines 95-127): stop when no table has unresolved items and nothing was
carried over; otherwise collect a batch, call the transport, feed the
unprocessed entries back and loop on them. -/
def runDeleteBody
    (transport : List (String × List PL) → Except DynErr (List (String × List PL)))
    (op : BatchOp) (citems : List (String × List PL)) : LoopStep :=
  let (empty, op) := isEmptyOp op
  if empty ∧ citems.length = 0 then .done (errorsOf op)
  else
    let (citems', op) := collectItems op 25 citems
    match transport citems' with
    | .error e => .failed e
    | .ok unp =>
      let (op', _) := processItems op citems' unp none
      .next op' unp

/-- Model of `BatchDelete.Run`'s loop, indexed by fuel: `none` means the loop is
still running after `fuel` iterations. -/
def runDelete
    (transport : List (String × List PL) → Except DynErr (List (String × List PL)))
    : Nat → BatchOp → List (String × List PL) → Option LoopStep
  | 0, _, _ => none
  | fuel + 1, op, citems =>
    match runDeleteBody transport op citems with
    | .next op' c' => runDelete transport fuel op' c'
    | r => some r

/-- A transport that reports every submitted entry as unprocessed on
every call, as in the claim's hypothesis. -/
def echoTransport (r : List (String × List PL)) :
    Except DynErr (List (String × List PL)) := .ok r

/-- A one-item batch-delete state: the single item's key resolves. -/
def oneItemOp : BatchOp := addItems newBatchOp "T" [⟨some "k", ""⟩] true

/-- The state `BatchDelete.Run` reaches after two iterations against
the always-unprocessed transport, starting from `oneItemOp`: it is a
fixpoint of the loop body. -/
def stuckOp : BatchOp :=
  { itemIdxs := [(("T", "k"), [0])], unproc := [],
    unprocIdxs := [(("T", "k"), [0])], unpCount := 0, errs := [] }

/-- The carried-over entries at the `stuckOp` fixpoint. -/
def stuckItems : List (String × List PL) := [("T", [⟨"k", ""⟩])]

/-- A 27-item slice with pairwise distinct resolvable keys. -/
def items27 : List InItem :=
  (List.range 27).map (fun i => ⟨some (toString i), ""⟩)

/-- The batch state right before `BatchDelete.Run`'s first collection
of `items27` (the loop head has already run `isEmpty`). -/
def items27Op : BatchOp := (isEmptyOp (addItems newBatchOp "T" items27 true)).2

/-- Model of `Run`'s first collection from `items27Op` with the delete batch
size of 25. -/
def firstCollect : List (String × List PL) × BatchOp :=
  collectItems items27Op 25 []

/-- Model of `Run`'s second collection, after the transport returned the whole
first batch as unprocessed: the first batch is carried over. -/
def secondCollect : List (String × List PL) × BatchOp :=
  collectItems
    (isEmptyOp ((processItems firstCollect.2 firstCollect.1 firstCollect.1 none).1)).2
    25 firstCollect.1

/-- Total number of payload entries in a batch request map. -/
def totalEntries (m : List (String × List PL)) : Nat :=
  (m.map (fun p => p.2.length)).sum

/-- Fold a list of attribute-name pairs into a placeholder map. -/
def putNames (m : List (String × String)) (l : List AttrName) :
    List (String × String) :=
  l.foldl (fun m (n : AttrName) => mapPut m n.placeholder n.value) m

/-- Fold a list of attribute-value pairs into a placeholder map. -/
def putValues (m : List (String × AttrVal)) (l : List AttrValue) :
    List (String × AttrVal) :=
  l.foldl (fun m (a : AttrValue) => mapPut m a.placeholder a.value) m

/-- The `Query` record `Client.Query` returns for a nonempty table. -/
def freshQuery (t : String) : Query :=
  { table := t, limit := -1, scanForward := true, consistentRead := false }

/-- A fresh query after one successful `Filter` call that compiled to
`w`. -/
def filteredQuery (t : String) (w : ExprValue) : Query :=
  { table := t, limit := -1, scanForward := true, consistentRead := false,
    filterExpr := w.expr, nfilters := 1,
    attributeNames := putNames [] w.attrNames,
    attributeValues := putValues [] w.attrValues }

/-- A fresh query after one successful `RangeFilter` call that
compiled to `v`. -/
def rangedQuery (t : String) (v : ExprValue) : Query :=
  { table := t, limit := -1, scanForward := true, consistentRead := false,
    rangeExpr := " AND " ++ v.expr,
    attributeNames := putNames [] v.attrNames,
    attributeValues := putValues [] v.attrValues }

/-- The input positions (counting from `i`) whose items resolved to
the key `k`; this is the index list the `addItems` maps accumulate
under one key. -/
def occIdxFrom (i : Nat) (k : String) : List InItem → List Nat
  | [] => []
  | it :: rest =>
    if it.key = some k then i :: occIdxFrom (i + 1) k rest
    else occIdxFrom (i + 1) k rest

/-- Combination of an optional existing index list with new indices,
as iterated map appends produce it: no entry and nothing new stays
absent. -/
def combineIdx (o : Option (List Nat)) (l : List Nat) : Option (List Nat) :=
  match o, l with
  | none, [] => none
  | _, _ => some (o.getD [] ++ l)

/-- A schema with a two-attribute primary key, one local secondary
index and one global secondary index. -/
def sampleSchema : Schema := ⟨["H", "R"], [⟨"L1", ["H", "A"]⟩], [⟨"G1", ["B"]⟩]⟩

/-- An item with both primary-key attributes non-zero. -/
def fullItem : Item := fun a =>
  if a = "H" then some "h" else if a = "R" then some "r" else none

/-- An item where only the global index key attribute is non-zero. -/
def partialItem : Item := fun a => if a = "B" then some "b" else none

/-- The scenario-B input slice of the spec: four delete items whose
positions 0 and 3 share the primary key "kA". -/
def scenarioB : List InItem :=
  [⟨some "kA", "d0"⟩, ⟨some "kB", "d1"⟩, ⟨some "kC", "d2"⟩, ⟨some "kA", "d3"⟩]

/-- The accumulator `addItems` builds with its main loop, starting from
the operation's index maps and fresh duplicate and slot lists. -/
def addAcc0 (b : BatchOp) (table : String) (ko : Bool)
    (items : List InItem) : AddAcc :=
  addLoop table ko 0 items ⟨b.itemIdxs, b.unprocIdxs, [], b.errs, []⟩

/-!  ## Theorems -/

/-- Applying any single chained configuration call to a `Query` that
carries a stored error returns it with the same stored error. -/
theorem applyCall_keeps_err (q : Query) (e : DynErr) (h : q.err = some e)
    (c : ConfigCall) : (applyCall q c).err = some e := by
  cases c <;>
    simp [applyCall, Query.Index, Query.Limit, Query.Desc, Query.Consistent,
      Query.HashFilter, Query.RangeFilter, Query.Filter, h]

/-- C4: a `Query` built with an empty table name stores the
empty-table-name error and one built with a non-positive explicit
limit stores the non-positive-limit error; a stored error survives
every subsequent chained configuration call unchanged, and `Run` on an
errored query short-circuits to the empty iterator without issuing a
request. -/
theorem query_construction_errors_resurface :
    ((clientQuery "").err = some .emptyTableName) ∧
    (∀ t : String, t ≠ "" → ∀ k : Int, k ≤ 0 →
      ((clientQuery t).Limit k).err = some .limitNotPositive) ∧
    (∀ q : Query, ∀ e : DynErr, q.err = some e →
      ∀ calls : List ConfigCall, (applyChain q calls).err = some e) ∧
    (∀ q : Query, q.err.isSome → q.Run = .emptyIterator) := by
  refine ⟨rfl, ?_, ?_, ?_⟩
  · intro t ht k hk
    simp [clientQuery, Query.Limit, ht, hk]
  · intro q e h calls
    induction calls generalizing q with
    | nil => exact h
    | cons c rest ih => exact ih _ (applyCall_keeps_err q e h c)
  · intro q h
    simp [Query.Run, h]

/-- Witness for C4 at concrete inputs: a bad limit on a real table, a
chain on an empty-table query, and the short-circuiting `Run`. -/
theorem query_construction_errors_resurface_witness :
    ((clientQuery "Book").Limit 0).err = some .limitNotPositive ∧
    (applyChain (clientQuery "") [.desc, .index "I", .limit 5]).err =
      some .emptyTableName ∧
    (clientQuery "").Run = .emptyIterator :=
  ⟨query_construction_errors_resurface.2.1 "Book" (by decide) 0 (by decide),
   query_construction_errors_resurface.2.2.1 (clientQuery "") .emptyTableName
     rfl [.desc, .index "I", .limit 5],
   query_construction_errors_resurface.2.2.2 (clientQuery "") (by decide)⟩

/-- C10: `RangeFilter` with an empty value list, and `HashFilter` with
an empty attribute name or a nil value, leave the `Query` entirely
unchanged: no field is modified and no error is recorded. -/
theorem empty_filter_args_leave_query_unchanged (q : Query) (expr : String)
    (_hexpr : expr ≠ "") (name : String) (v : Option Val) :
    q.RangeFilter expr [] = q ∧
    q.HashFilter "" v = q ∧
    q.HashFilter name none = q := by
  refine ⟨?_, ?_, ?_⟩
  · simp [Query.RangeFilter]
  · cases v <;> simp [Query.HashFilter]
  · simp [Query.HashFilter]

/-- Witness for C10 at a concrete query and arguments. -/
theorem empty_filter_args_leave_query_unchanged_witness :
    (clientQuery "Book").RangeFilter "Title = :t" [] = clientQuery "Book" ∧
    (clientQuery "Book").HashFilter "" (some "x") = clientQuery "Book" ∧
    (clientQuery "Book").HashFilter "Title" none = clientQuery "Book" :=
  empty_filter_args_leave_query_unchanged (clientQuery "Book") "Title = :t"
    (by decide) "Title" (some "x")

/-- Counterexample to C1's priority order: on the term
`a IN (:u, :w)` the source's dispatch (comparison, between, in,
function call) parses an IN term, while dispatch in the order the
claim states (function call first) aborts with the hard
unknown-func-expression error, because `reFunc` structurally matches
the term.  The two orders are therefore observably different, so the
term parsers are not tried function-call-first. -/
theorem dispatch_order_differs_from_claimed :
    dispatchTerm exprParser "a IN (:u, :w)" = .ok ("a", [":u", ":w"]) ∧
    dispatchTerm exprParserSpecOrder "a IN (:u, :w)" =
      .error (.unknownFuncExpr "a IN ") ∧
    DynErr.unknownFuncExpr "a IN " ≠ DynErr.invalidExpression := by
  refine ⟨by decide, by decide, by decide⟩

/-- C1 (amended): for every term, the term-shape parsers are tried in
the fixed priority order comparison, between, in, function call; the
first parser that does not report no-match decides the term (a hard
error from a structurally matching parser aborts), and a term no
parser matches yields the invalid-expression error. -/
theorem term_parsers_priority_order (s : String) :
    dispatchTerm exprParser s =
      (match parseCompExpr s with
       | .error .errNoMatch =>
         match parseBetweenExpr s with
         | .error .errNoMatch =>
           match parseInExpr s with
           | .error .errNoMatch =>
             match parseFuncExpr s with
             | .error .errNoMatch => .error .invalidExpression
             | r => r
           | r => r
         | r => r
       | r => r) := by
  simp only [dispatchTerm, tryParsers]
  cases parseCompExpr s with
  | ok r => rfl
  | error e =>
    cases e <;> try rfl
    cases parseBetweenExpr s with
    | ok r => rfl
    | error e =>
      cases e <;> try rfl
      cases parseInExpr s with
      | ok r => rfl
      | error e =>
        cases e <;> try rfl
        cases parseFuncExpr s with
        | ok r => rfl
        | error e => cases e <;> rfl

/-- C2 is violated by the code: starting from a batch holding one item
whose primary key resolved, against a transport that returns every
submitted entry as unprocessed on every call, `BatchDelete.Run`'s loop
never terminates: for every iteration bound the loop is still running
(there is no retry cap and no failure path for persistent unprocessed
items). -/
theorem batchDelete_run_diverges_when_all_unprocessed :
    ∀ fuel : Nat, runDelete echoTransport fuel oneItemOp [] = none := by
  have hfix : ∀ n, runDelete echoTransport n stuckOp stuckItems = none := by
    intro n
    induction n with
    | zero => rfl
    | succ n ih =>
      have h : runDeleteBody echoTransport stuckOp stuckItems =
          .next stuckOp stuckItems := by decide
      simp only [runDelete, h]
      exact ih
  intro fuel
  match fuel with
  | 0 => rfl
  | 1 => rfl
  | n + 2 =>
    have h0 : runDeleteBody echoTransport oneItemOp [] =
        .next { stuckOp with unproc := [("T", [])] } stuckItems := by decide
    have h1 : runDeleteBody echoTransport
        { stuckOp with unproc := [("T", [])] } stuckItems =
        .next stuckOp stuckItems := by decide
    simp only [runDelete, h0, h1]
    exact hfix n

/-- A successful pairing loop pairs exactly one value per placeholder. -/
theorem parseAttrValLoop_ok_length (phs : List String) :
    ∀ (vals : List Val) (avs : List AttrValue),
      parseAttrValLoop phs vals = .ok avs → avs.length = phs.length := by
  induction phs with
  | nil =>
    intro vals avs h
    simp only [parseAttrValLoop] at h
    injection h with h'
    subst h'
    rfl
  | cons ph rest ih =>
    intro vals avs h
    simp only [parseAttrValLoop, convertTo] at h
    split at h
    · split at h
      · cases h
      · split at h
        · cases h
        · next tail htail =>
          injection h with h'
          rw [← h']
          simp [ih _ _ htail]
    · cases h

/-- Successful value pairing consumes exactly the placeholder count,
which then cannot exceed the supplied values. -/
theorem parseExprAttrValue_ok_length (phs : List String) (vals : List Val)
    (avs : List AttrValue) (h : parseExprAttrValue phs vals = .ok avs) :
    avs.length = phs.length ∧ phs.length ≤ vals.length := by
  simp only [parseExprAttrValue] at h
  split at h
  · cases h
  · next hgt => exact ⟨parseAttrValLoop_ok_length _ _ _ h, Nat.le_of_not_lt hgt⟩

/-- The pairing loop succeeds whenever every placeholder starts with
a colon and enough values remain. -/
theorem parseAttrValLoop_ok (phs : List String) :
    ∀ vals : List Val,
      (∀ ph ∈ phs, ph.toList.head? = some ':') →
      phs.length ≤ vals.length →
      ∃ avs, parseAttrValLoop phs vals = .ok avs ∧ avs.length = phs.length := by
  induction phs with
  | nil => intro vals _ _; exact ⟨[], rfl, rfl⟩
  | cons ph rest ih =>
    intro vals hcol hlen
    cases vals with
    | nil => simp at hlen
    | cons v vrest =>
      have hhead := hcol ph (List.mem_cons_self ph rest)
      obtain ⟨tail, htail⟩ : ∃ tail, ph.toList = ':' :: tail := by
        cases hl : ph.toList with
        | nil => rw [hl] at hhead; cases hhead
        | cons c t =>
          rw [hl] at hhead
          injection hhead with h'
          exact ⟨t, by rw [h']⟩
      obtain ⟨avs, havs, hlen'⟩ := ih vrest
        (fun p hp => hcol p (List.mem_cons_of_mem ph hp))
        (Nat.le_of_succ_le_succ hlen)
      refine ⟨⟨ph, v⟩ :: avs, ?_, by simp [hlen']⟩
      simp only [parseAttrValLoop, htail, convertTo, havs]

/-- The duplicate check passes on pairwise distinct placeholders. -/
theorem checkDups_ok (phs : List String) :
    ∀ vphs : List String, (vphs ++ phs).Nodup →
      checkDups vphs phs = .ok (vphs ++ phs) := by
  induction phs with
  | nil => intro vphs _; simp [checkDups]
  | cons ph rest ih =>
    intro vphs h
    have hne : ph ∉ vphs := by
      have hd := (List.nodup_append.mp h).2.2
      intro hmem
      exact hd hmem (List.mem_cons_self ph rest)
    have h' : ((vphs ++ [ph]) ++ rest).Nodup := by
      rw [List.append_assoc, List.singleton_append]
      exact h
    have hrec := ih (vphs ++ [ph]) h'
    simp only [checkDups, hne, if_false]
    rw [hrec, List.append_assoc, List.singleton_append]

/-- Processing one term succeeds when it parses, its placeholders are
fresh and well formed, and enough values remain; it consumes exactly
one value per placeholder. -/
theorem processOr_ok (st : PState) (t an : String) (vph : List String)
    (hd : dispatchTerm exprParser (replaceAllStr t "NOT " "") = .ok (an, vph))
    (hnodup : (st.vphs ++ vph).Nodup)
    (hcol : ∀ ph ∈ vph, ph.toList.head? = some ':')
    (hlen : vph.length ≤ st.values.length) :
    ∃ avs : List AttrValue, avs.length = vph.length ∧
      processOr st t = .ok ((parseExprAttrName t an).1,
        ⟨st.vphs ++ vph, st.attrNames ++ (parseExprAttrName t an).2,
         st.attrValues ++ avs, st.values.drop vph.length⟩) := by
  obtain ⟨avs, havs, hlenavs⟩ := parseAttrValLoop_ok vph st.values hcol hlen
  refine ⟨avs, hlenavs, ?_⟩
  simp only [processOr, hd, checkDups_ok vph st.vphs hnodup,
    parseExprAttrValue, if_neg (Nat.not_lt.mpr hlen), havs, hlenavs]

/-- Processing one term fails with the inadequate-expression-values
error when the term parses, its placeholders are fresh, and fewer
values remain than the term has placeholders. -/
theorem processOr_inadequate (st : PState) (t an : String) (vph : List String)
    (hd : dispatchTerm exprParser (replaceAllStr t "NOT " "") = .ok (an, vph))
    (hnodup : (st.vphs ++ vph).Nodup)
    (hlen : st.values.length < vph.length) :
    processOr st t = .error .inadequateValues := by
  simp only [processOr, hd, checkDups_ok vph st.vphs hnodup,
    parseExprAttrValue, if_pos (Nat.lt_iff_add_one_le.mpr hlen)]

/-- Whatever the inputs, a successfully processed term consumed
exactly one supplied value per placeholder. -/
theorem processOr_values (st : PState) (t : String) (e : String) (st' : PState)
    (h : processOr st t = .ok (e, st')) :
    (termVph t).length ≤ st.values.length ∧
      st'.values.length = st.values.length - (termVph t).length := by
  simp only [processOr] at h
  split at h
  · cases h
  · next an vph hd =>
    have htv : termVph t = vph := by simp [termVph, hd]
    split at h
    · cases h
    · split at h
      · cases h
      · next avs havs =>
        obtain ⟨hl, hle⟩ := parseExprAttrValue_ok_length vph st.values avs havs
        injection h with h'
        injection h' with h1 h2
        rw [htv, ← h2]
        simp [hl, hle]

/-- Unfolding the placeholder count of a term list. -/
theorem vsum_cons (t : String) (rest : List String) :
    vsum (t :: rest) = (termVph t).length + vsum rest := by
  simp [vsum]

/-- The placeholder count is additive. -/
theorem vsum_append (a b : List String) :
    vsum (a ++ b) = vsum a + vsum b := by
  simp [vsum]

/-- A successfully processed term list consumed exactly its total
placeholder count in values. -/
theorem processOrList_values (ts : List String) :
    ∀ (st : PState) (es : List String) (st' : PState),
      processOrList st ts = .ok (es, st') →
      vsum ts ≤ st.values.length ∧
        st'.values.length = st.values.length - vsum ts := by
  induction ts with
  | nil =>
    intro st es st' h
    injection h with h'
    injection h' with h1 h2
    subst h2
    simp [vsum]
  | cons t rest ih =>
    intro st es st' h
    simp only [processOrList] at h
    split at h
    · cases h
    · next e st1 hpo =>
      split at h
      · cases h
      · next es' st2 hrec =>
        injection h with h'
        injection h' with h1 h2
        subst h2
        obtain ⟨ha1, ha2⟩ := processOr_values st t e st1 hpo
        obtain ⟨hb1, hb2⟩ := ih st1 es' st2 hrec
        rw [vsum_cons]
        omega

/-- A successfully processed group list consumed exactly its total
placeholder count in values. -/
theorem processAndList_values (gs : List (List String)) :
    ∀ (st : PState) (res : List (List String)) (st' : PState),
      processAndList st gs = .ok (res, st') →
      vsum gs.flatten ≤ st.values.length ∧
        st'.values.length = st.values.length - vsum gs.flatten := by
  induction gs with
  | nil =>
    intro st res st' h
    injection h with h'
    injection h' with h1 h2
    subst h2
    simp [vsum]
  | cons g rest ih =>
    intro st res st' h
    simp only [processAndList] at h
    split at h
    · cases h
    · next es st1 hg =>
      split at h
      · cases h
      · next gs' st2 hrec =>
        injection h with h'
        injection h' with h1 h2
        subst h2
        obtain ⟨ha1, ha2⟩ := processOrList_values g st es st1 hg
        obtain ⟨hb1, hb2⟩ := ih st1 gs' st2 hrec
        rw [List.flatten_cons, vsum_append]
        omega

/-- A compiled expression never uses fewer supplied values than its
terms hold placeholders. -/
theorem parseExpression_ok_le (expr : String) (values : List Val)
    (v : ExprValue) (h : parseExpression expr values = .ok v) :
    countPlaceholders expr ≤ values.length := by
  simp only [parseExpression] at h
  split at h
  · cases h
  · next gs st hand =>
    have := processAndList_values _ _ _ _ hand
    simpa [countPlaceholders, termsOf] using this.1

/-- Processing a term list whose terms parse with fresh, well-formed
placeholders: enough values means success consuming exactly the
placeholder count; too few values means the
inadequate-expression-values error. -/
theorem processOrList_spec (ts : List String) :
    ∀ st : PState,
      (∀ t ∈ ts,
        (dispatchTerm exprParser (replaceAllStr t "NOT " "")).isOk = true) →
      (st.vphs ++ (ts.map termVph).flatten).Nodup →
      (∀ ph ∈ (ts.map termVph).flatten, ph.toList.head? = some ':') →
      (vsum ts ≤ st.values.length →
        ∃ es st', processOrList st ts = .ok (es, st') ∧
          st'.vphs = st.vphs ++ (ts.map termVph).flatten ∧
          st'.values = st.values.drop (vsum ts)) ∧
      (st.values.length < vsum ts →
        processOrList st ts = .error .inadequateValues) := by
  induction ts with
  | nil =>
    intro st _ _ _
    constructor
    · intro _
      exact ⟨[], st, rfl, by simp, by simp [vsum]⟩
    · intro hlt
      simp [vsum] at hlt
  | cons t rest ih =>
    intro st hok hnodup hcol
    obtain ⟨an, vph, hd⟩ : ∃ an vph,
        dispatchTerm exprParser (replaceAllStr t "NOT " "") = .ok (an, vph) := by
      have hh := hok t (List.mem_cons_self t rest)
      cases hdm : dispatchTerm exprParser (replaceAllStr t "NOT " "") with
      | error e => rw [hdm] at hh; cases hh
      | ok p =>
        obtain ⟨a, b⟩ := p
        exact ⟨a, b, rfl⟩
    have htv : termVph t = vph := by simp [termVph, hd]
    have hflat : ((t :: rest).map termVph).flatten =
        vph ++ (rest.map termVph).flatten := by
      simp [htv]
    rw [hflat] at hnodup hcol
    have hnd1 : (st.vphs ++ vph).Nodup := by
      have hh := hnodup
      rw [← List.append_assoc] at hh
      exact hh.of_append_left
    have hcol1 : ∀ ph ∈ vph, ph.toList.head? = some ':' :=
      fun ph hp => hcol ph (List.mem_append_left _ hp)
    have hvs : vsum (t :: rest) = vph.length + vsum rest := by
      rw [vsum_cons, htv]
    have hok' : ∀ t' ∈ rest,
        (dispatchTerm exprParser (replaceAllStr t' "NOT " "")).isOk = true :=
      fun t' ht' => hok t' (List.mem_cons_of_mem t ht')
    have hnodup' : ((st.vphs ++ vph) ++ (rest.map termVph).flatten).Nodup := by
      rw [List.append_assoc]
      exact hnodup
    have hcol' : ∀ ph ∈ (rest.map termVph).flatten,
        ph.toList.head? = some ':' :=
      fun ph hp => hcol ph (List.mem_append_right _ hp)
    constructor
    · intro hle
      rw [hvs] at hle
      have hlen1 : vph.length ≤ st.values.length := by omega
      obtain ⟨avs, hlenavs, hpo⟩ := processOr_ok st t an vph hd hnd1 hcol1 hlen1
      have hlen' : vsum rest ≤ (st.values.drop vph.length).length := by
        simp only [List.length_drop]
        omega
      obtain ⟨es, st', hrec, hvphs, hvals⟩ :=
        (ih ⟨st.vphs ++ vph, st.attrNames ++ (parseExprAttrName t an).2,
             st.attrValues ++ avs, st.values.drop vph.length⟩
          hok' hnodup' hcol').1 hlen'
      refine ⟨(parseExprAttrName t an).1 :: es, st', ?_, ?_, ?_⟩
      · simp only [processOrList, hpo, hrec]
      · simp only [hvphs, hflat, List.append_assoc]
      · simp only [hvals, List.drop_drop, hvs]
    · intro hlt
      rw [hvs] at hlt
      by_cases hlen1 : vph.length ≤ st.values.length
      · obtain ⟨avs, hlenavs, hpo⟩ := processOr_ok st t an vph hd hnd1 hcol1 hlen1
        have hlt' : (st.values.drop vph.length).length < vsum rest := by
          simp only [List.length_drop]
          omega
        have hrec :=
          (ih ⟨st.vphs ++ vph, st.attrNames ++ (parseExprAttrName t an).2,
               st.attrValues ++ avs, st.values.drop vph.length⟩
            hok' hnodup' hcol').2 hlt'
        simp only [processOrList, hpo, hrec]
      · have hpo := processOr_inadequate st t an vph hd hnd1
          (Nat.lt_of_not_le hlen1)
        simp only [processOrList, hpo]

/-- Processing the group list fails with the
inadequate-expression-values error as soon as the supplied values run
short of the total placeholder count. -/
theorem processAndList_inadequate (gs : List (List String)) :
    ∀ st : PState,
      (∀ t ∈ gs.flatten,
        (dispatchTerm exprParser (replaceAllStr t "NOT " "")).isOk = true) →
      (st.vphs ++ (gs.flatten.map termVph).flatten).Nodup →
      (∀ ph ∈ (gs.flatten.map termVph).flatten, ph.toList.head? = some ':') →
      st.values.length < vsum gs.flatten →
      processAndList st gs = .error .inadequateValues := by
  induction gs with
  | nil =>
    intro st _ _ _ hlt
    simp [vsum] at hlt
  | cons g rest ih =>
    intro st hok hnodup hcol hlt
    have hdist : (((g :: rest).flatten).map termVph).flatten =
        (g.map termVph).flatten ++ (rest.flatten.map termVph).flatten := by
      simp [List.map_append]
    rw [List.flatten_cons] at hok hlt
    rw [hdist] at hnodup hcol
    have hokg : ∀ t ∈ g,
        (dispatchTerm exprParser (replaceAllStr t "NOT " "")).isOk = true :=
      fun t ht => hok t (List.mem_append_left _ ht)
    have hnodg : (st.vphs ++ (g.map termVph).flatten).Nodup := by
      have hh := hnodup
      rw [← List.append_assoc] at hh
      exact hh.of_append_left
    have hcolg : ∀ ph ∈ (g.map termVph).flatten, ph.toList.head? = some ':' :=
      fun ph hp => hcol ph (List.mem_append_left _ hp)
    rw [vsum_append] at hlt
    by_cases hle : vsum g ≤ st.values.length
    · obtain ⟨es, st1, hg, hvphs, hvals⟩ :=
        (processOrList_spec g st hokg hnodg hcolg).1 hle
      have hokr : ∀ t ∈ rest.flatten,
          (dispatchTerm exprParser (replaceAllStr t "NOT " "")).isOk = true :=
        fun t ht => hok t (List.mem_append_right _ ht)
      have hnodr : (st1.vphs ++ (rest.flatten.map termVph).flatten).Nodup := by
        rw [hvphs, List.append_assoc]
        exact hnodup
      have hcolr : ∀ ph ∈ (rest.flatten.map termVph).flatten,
          ph.toList.head? = some ':' :=
        fun ph hp => hcol ph (List.mem_append_right _ hp)
      have hltr : st1.values.length < vsum rest.flatten := by
        rw [hvals, List.length_drop]
        omega
      have hrec := ih st1 hokr hnodr hcolr hltr
      simp only [processAndList, hg, hrec]
    · have hg := (processOrList_spec g st hokg hnodg hcolg).2
        (Nat.lt_of_not_le hle)
      simp only [processAndList, hg]

/-- C5 (amended): compilation can never succeed with fewer supplied
values than the expression's terms hold placeholders; and whenever
every term parses, the placeholders are pairwise distinct and well
formed (starting with `:`), supplying fewer values than placeholders
always fails with precisely the inadequate-expression-values error. -/
theorem compile_never_underreads :
    (∀ (expr : String) (values : List Val) (v : ExprValue),
      parseExpression expr values = .ok v →
      countPlaceholders expr ≤ values.length) ∧
    (∀ (expr : String) (values : List Val),
      (∀ t ∈ termsOf expr,
        (dispatchTerm exprParser (replaceAllStr t "NOT " "")).isOk = true) →
      ((termsOf expr).map termVph).flatten.Nodup →
      (∀ ph ∈ ((termsOf expr).map termVph).flatten,
        ph.toList.head? = some ':') →
      values.length < countPlaceholders expr →
      parseExpression expr values = .error .inadequateValues) := by
  constructor
  · exact parseExpression_ok_le
  · intro expr values hok hnodup hcol hlt
    have hnodup' : (([] : List String) ++
        ((((splitOnStr (replaceBetweenAnd expr) " AND ").map
          (splitOnStr · " OR ")).flatten.map termVph).flatten)).Nodup := by
      rw [List.nil_append]
      exact hnodup
    have h := processAndList_inadequate
      ((splitOnStr (replaceBetweenAnd expr) " AND ").map (splitOnStr · " OR "))
      ⟨[], [], [], values⟩ hok hnodup' hcol hlt
    simp only [parseExpression, h]

/-- Counterexample to C5 as stated: the expression
`a = :v AND b = :v` holds two value placeholders in total and only one
value is supplied, yet compilation fails with the duplicate-placeholder
error, not the value-count error, because the duplicate check runs
before the second term consumes values. -/
theorem value_shortfall_not_always_value_count_error :
    countPlaceholders "a = :v AND b = :v" = 2 ∧
    (1 : Nat) < 2 ∧
    parseExpression "a = :v AND b = :v" ["x"] =
      .error (.duplicatePlaceholder ":v") ∧
    DynErr.duplicatePlaceholder ":v" ≠ DynErr.inadequateValues := by
  refine ⟨by decide, by decide, by decide, by decide⟩

/-- Witness for C5 at concrete inputs: two distinct placeholders with
one value fail with the value-count error; a successful one-placeholder
compile consumed no more values than supplied. -/
theorem compile_never_underreads_witness :
    parseExpression "a = :v AND b = :w" ["x"] = .error .inadequateValues ∧
    countPlaceholders "a = :v" ≤ 1 :=
  ⟨compile_never_underreads.2 "a = :v AND b = :w" ["x"] (by decide) (by decide)
     (by decide) (by decide),
   compile_never_underreads.1 "a = :v" ["x"]
     ⟨"#a_PH = :v", [⟨"#a_PH", "a"⟩], [⟨":v", "x"⟩]⟩ (by decide)⟩

/-- Folding `addAttributeName` over placeholder pairs only changes the
`attributeNames` map. -/
theorem foldAddNames (q : Query) (l : List AttrName) :
    l.foldl (fun q (n : AttrName) => q.addAttributeName n.placeholder n.value) q =
      { q with attributeNames := putNames q.attributeNames l } := by
  induction l generalizing q with
  | nil => rfl
  | cons n rest ih =>
    rw [List.foldl_cons, ih]
    simp [putNames, Query.addAttributeName]

/-- Folding `addAttributeValue` over placeholder pairs only changes
the `attributeValues` map. -/
theorem foldAddValues (q : Query) (l : List AttrValue) :
    l.foldl (fun q (a : AttrValue) => q.addAttributeValue a.placeholder a.value) q =
      { q with attributeValues := putValues q.attributeValues l } := by
  induction l generalizing q with
  | nil => rfl
  | cons a rest ih =>
    rw [List.foldl_cons, ih]
    simp [putValues, Query.addAttributeValue]

/-- C7: a `Query` without a hash filter runs a Scan, never a Query
operation; the scan's filter expression is the accumulated post filter
with any range-filter text appended; with a post filter and no range
filter the scan's filter expression is exactly the compiled
(wire-rewritten) post filter; and a lone range filter on a scan lands
in the filter expression (scans have no key condition). -/
theorem query_without_hash_scans :
    (∀ q : Query, q.err = none → q.hashExpr = "" →
      q.Run = .scanned ⟨q.table, q.index, q.filterExpr ++ q.rangeExpr,
        q.attributeNames, q.attributeValues, q.limit, q.consistentRead⟩) ∧
    (∀ t fexpr : String, ∀ fvals : List Val, ∀ w : ExprValue,
      t ≠ "" → fexpr ≠ "" → parseExpression fexpr fvals = .ok w →
      ((clientQuery t).Filter fexpr fvals).Run =
        .scanned ⟨t, "", w.expr, putNames [] w.attrNames, putValues [] w.attrValues,
          -1, false⟩) ∧
    (∀ t rexpr : String, ∀ rvals : List Val, ∀ v : ExprValue,
      t ≠ "" → rexpr ≠ "" → rvals ≠ [] → parseExpression rexpr rvals = .ok v →
      ((clientQuery t).RangeFilter rexpr rvals).Run =
        .scanned ⟨t, "", " AND " ++ v.expr, putNames [] v.attrNames,
          putValues [] v.attrValues, -1, false⟩) := by
  refine ⟨?_, ?_, ?_⟩
  · intro q he hh
    simp [Query.Run, he, hh]
  · intro t fexpr fvals w ht hf hp
    have h1 : clientQuery t = freshQuery t := by
      simp [clientQuery, freshQuery, ht]
    have h2 : (freshQuery t).Filter fexpr fvals = filteredQuery t w := by
      show Query.Filter _ _ _ = _
      unfold Query.Filter freshQuery
      rw [if_neg (by simp), if_pos hf, hp]
      dsimp only
      rw [foldAddNames, foldAddValues]
      rfl
    rw [h1, h2]
    simp [Query.Run, filteredQuery]
  · intro t rexpr rvals v ht hr hv hp
    have h1 : clientQuery t = freshQuery t := by
      simp [clientQuery, freshQuery, ht]
    have h2 : (freshQuery t).RangeFilter rexpr rvals = rangedQuery t v := by
      show Query.RangeFilter _ _ _ = _
      unfold Query.RangeFilter freshQuery
      rw [if_neg (by simp), if_pos (And.intro hr (List.length_pos.mpr hv)), hp]
      dsimp only
      rw [foldAddNames, foldAddValues]
      rfl
    rw [h1, h2]
    simp [Query.Run, rangedQuery]

/-- Witness for C7: a query on table `T` with the post filter
`a = :v` runs a scan whose filter expression is the rewritten filter
text, and a lone range filter lands in the scan filter. -/
theorem query_without_hash_scans_witness :
    ((clientQuery "T").Filter "a = :v" ["x"]).Run =
      .scanned ⟨"T", "", "#a_PH = :v", [("#a_PH", "a")], [(":v", "x")],
        -1, false⟩ ∧
    ((clientQuery "T").RangeFilter "b >= :w" ["y"]).Run =
      .scanned ⟨"T", "", " AND #b_PH >= :w", [("#b_PH", "b")], [(":w", "y")],
        -1, false⟩ := by
  constructor
  · have h := query_without_hash_scans.2.1 "T" "a = :v" ["x"]
      ⟨"#a_PH = :v", [⟨"#a_PH", "a"⟩], [⟨":v", "x"⟩]⟩
      (by decide) (by decide) (by decide)
    exact h.trans (by decide)
  · have h := query_without_hash_scans.2.2 "T" "b >= :w" ["y"]
      ⟨"#b_PH >= :w", [⟨"#b_PH", "b"⟩], [⟨":w", "y"⟩]⟩
      (by decide) (by decide) (by decide) (by decide)
    exact h.trans (by decide)

/-- Fact: `lexLt` never relates a list to itself. -/
theorem lexLt_irrefl (l : List Char) : lexLt l l = false := by
  induction l with
  | nil => rfl
  | cons a as ih => simp [lexLt, ih]

/-- Fact: `lexLt` is transitive. -/
theorem lexLt_trans : ∀ {a b c : List Char}, lexLt a b = true →
    lexLt b c = true → lexLt a c = true
  | [], [], _, h1, _ => by simp [lexLt] at h1
  | [], _ :: _, [], _, h2 => by simp [lexLt] at h2
  | [], _ :: _, _ :: _, _, _ => rfl
  | _ :: _, [], _, h1, _ => by simp [lexLt] at h1
  | _ :: _, _ :: _, [], _, h2 => by simp [lexLt] at h2
  | a :: as, b :: bs, c :: cs, h1, h2 => by
    simp only [lexLt] at *
    by_cases hab : a < b
    · by_cases hbc : b < c
      · simp [lt_trans hab hbc]
      · simp only [hbc, if_false] at h2
        by_cases hbc2 : b = c
        · simp [hbc2 ▸ hab]
        · simp [hbc2] at h2
    · simp only [hab, if_false] at h1
      by_cases hab2 : a = b
      · simp only [hab2, if_pos rfl] at h1 ⊢
        by_cases hbc : b < c
        · simp [hbc]
        · simp only [hbc, if_false] at h2 ⊢
          by_cases hbc2 : b = c
          · simp only [hbc2, if_pos rfl] at h2 ⊢
            exact lexLt_trans h1 h2
          · simp [hbc2] at h2
      · simp [hab2] at h1

/-- Fact: `lexLt` relates any two distinct lists one way or the other. -/
theorem lexLt_connex : ∀ {a b : List Char}, a ≠ b →
    lexLt a b = true ∨ lexLt b a = true
  | [], [], h => absurd rfl h
  | [], _ :: _, _ => Or.inl rfl
  | _ :: _, [], _ => Or.inr rfl
  | a :: as, b :: bs, h => by
    by_cases hab : a = b
    · subst hab
      have hne : as ≠ bs := fun he => h (he ▸ rfl)
      rcases lexLt_connex hne with hl | hr
      · exact Or.inl (by simp [lexLt, hl])
      · exact Or.inr (by simp [lexLt, hr])
    · rcases lt_or_gt_of_ne hab with hlt | hgt
      · exact Or.inl (by simp [lexLt, hlt])
      · exact Or.inr (by simp [lexLt, hgt])

/-- Fact: `seqLess` never relates equal sequence numbers. -/
theorem seqLess_irrefl (a : String) : seqLess a a = false := by
  simp [seqLess, lexLt_irrefl]

/-- Fact: `seqLess` spelt out: length first, then lexicographic. -/
theorem seqLess_iff (a b : String) :
    seqLess a b = true ↔
      a.length < b.length ∨
        (a.length = b.length ∧ lexLt a.toList b.toList = true) := by
  unfold seqLess
  by_cases h : a.length = b.length
  · simp [h, lt_irrefl]
  · simp [h]

/-- Fact: `seqLess` is transitive. -/
theorem seqLess_trans {a b c : String} (h1 : seqLess a b = true)
    (h2 : seqLess b c = true) : seqLess a c = true := by
  rw [seqLess_iff] at *
  rcases h1 with h1 | ⟨e1, l1⟩ <;> rcases h2 with h2 | ⟨e2, l2⟩
  · exact Or.inl (lt_trans h1 h2)
  · exact Or.inl (e2 ▸ h1)
  · exact Or.inl (e1 ▸ h2)
  · exact Or.inr ⟨e1.trans e2, lexLt_trans l1 l2⟩

/-- Fact: `seqLess` relates any two distinct sequence numbers one way or the
other. -/
theorem seqLess_connex (a b : String) (h : a ≠ b) :
    seqLess a b = true ∨ seqLess b a = true := by
  rw [seqLess_iff, seqLess_iff]
  by_cases hl : a.length = b.length
  · have hne : a.toList ≠ b.toList := fun he => h (String.ext he)
    rcases lexLt_connex hne with hlt | hgt
    · exact Or.inl (Or.inr ⟨hl, hlt⟩)
    · exact Or.inr (Or.inr ⟨hl.symm, hgt⟩)
  · rcases Nat.lt_or_ge a.length b.length with hlt | hge
    · exact Or.inl (Or.inl hlt)
    · exact Or.inr (Or.inl (lt_of_le_of_ne hge (Ne.symm hl)))

/-- The non-strict shard order is total. -/
theorem shardLe_total (x y : Shard) :
    seqLess y.start x.start = false ∨ seqLess x.start y.start = false := by
  by_cases h : seqLess y.start x.start = false
  · exact Or.inl h
  · right
    have h1 : seqLess y.start x.start = true := by
      cases hval : seqLess y.start x.start
      · exact absurd hval h
      · rfl
    by_contra h2
    have h3 : seqLess x.start y.start = true := by
      cases hval : seqLess x.start y.start
      · exact absurd hval h2
      · rfl
    have := seqLess_trans h1 h3
    rw [seqLess_irrefl] at this
    exact Bool.false_ne_true this

/-- The non-strict shard order is transitive. -/
theorem shardLe_trans (x y z : Shard)
    (h1 : seqLess y.start x.start = false)
    (h2 : seqLess z.start y.start = false) :
    seqLess z.start x.start = false := by
  by_contra h
  have hzx : seqLess z.start x.start = true := by
    cases hval : seqLess z.start x.start
    · exact absurd hval h
    · rfl
  by_cases he : x.start = y.start
  · rw [he] at hzx
    rw [hzx] at h2
    simp at h2
  · rcases seqLess_connex x.start y.start he with hxy | hyx
    · have hzy := seqLess_trans hzx hxy
      rw [hzy] at h2
      simp at h2
    · rw [hyx] at h1
      simp at h1

/-- C8: `seqLess` is a strict total order on sequence numbers,
ordering by length first (shorter before longer) and lexicographically
for equal lengths; and `getShards` skips shards whose ids are marked
processed and returns the rest as a permutation sorted ascending by
starting sequence number under exactly this order. -/
theorem seqNum_total_order_and_shard_sort :
    (∀ a : String, seqLess a a = false) ∧
    (∀ a b c : String, seqLess a b = true → seqLess b c = true →
      seqLess a c = true) ∧
    (∀ a b : String, a ≠ b → seqLess a b = true ∨ seqLess b a = true) ∧
    (∀ a b : String, a.length < b.length → seqLess a b = true) ∧
    (∀ a b : String, a.length = b.length →
      (seqLess a b = true ↔ lexLt a.toList b.toList = true)) ∧
    (∀ (processed : String → Bool) (shards : List Shard),
      List.Perm (getShards processed shards)
        (shards.filter (fun s => !processed s.id)) ∧
      List.Sorted (fun x y : Shard => seqLess y.start x.start = false)
        (getShards processed shards) ∧
      (∀ s ∈ getShards processed shards, processed s.id = false)) := by
  refine ⟨seqLess_irrefl, fun a b c => seqLess_trans, seqLess_connex,
    ?_, ?_, ?_⟩
  · intro a b h
    rw [seqLess_iff]
    exact Or.inl h
  · intro a b h
    rw [seqLess_iff]
    simp [h, lt_irrefl]
  · intro processed shards
    haveI htot : IsTotal Shard (fun x y => seqLess y.start x.start = false) :=
      ⟨shardLe_total⟩
    haveI htr : IsTrans Shard (fun x y => seqLess y.start x.start = false) :=
      ⟨shardLe_trans⟩
    refine ⟨List.perm_insertionSort _ _, List.sorted_insertionSort _ _, ?_⟩
    intro s hs
    simp only [getShards, List.mem_insertionSort] at hs
    have hmem := List.of_mem_filter hs
    simpa using hmem

/-- Witness for C8: the order applied at concrete sequence numbers —
a shorter number sorts first, equal lengths compare lexicographically,
transitivity and connexity hold at concrete triples. -/
theorem seqNum_total_order_and_shard_sort_witness :
    seqLess "99" "111" = true ∧
    (seqLess "102" "114" = true ↔ lexLt "102".toList "114".toList = true) ∧
    seqLess "2" "11" = true ∧
    (seqLess "5" "7" = true ∨ seqLess "7" "5" = true) :=
  ⟨seqNum_total_order_and_shard_sort.2.2.2.1 "99" "111" (by decide),
   seqNum_total_order_and_shard_sort.2.2.2.2.1 "102" "114" (by decide),
   seqNum_total_order_and_shard_sort.2.1 "2" "9" "11" (by decide) (by decide),
   seqNum_total_order_and_shard_sort.2.2.1 "5" "7" (by decide)⟩

/-- Fact: `primKeyLoop` collects every key attribute when all are
non-zero. -/
theorem primKeyLoop_ok (item : Item) :
    ∀ keys : List String, (∀ k ∈ keys, (item k).isSome) →
      primKeyLoop item keys =
        .ok (keys.filterMap (fun k => (item k).map ((k, ·)))) := by
  intro keys
  induction keys with
  | nil => intro _; rfl
  | cons k rest ih =>
    intro h
    have hk := h k (List.mem_cons_self k rest)
    obtain ⟨v, hv⟩ := Option.isSome_iff_exists.mp hk
    have hrest := ih (fun j hj => h j (List.mem_cons_of_mem k hj))
    simp [primKeyLoop, hv, hrest]

/-- Fact: `primKeyLoop` reports an incomplete primary key when some key
attribute is zero. -/
theorem primKeyLoop_err (item : Item) :
    ∀ keys : List String, (∃ k ∈ keys, item k = none) →
      primKeyLoop item keys = .error .incompletePrimaryKey := by
  intro keys
  induction keys with
  | nil => rintro ⟨k, hk, _⟩; cases hk
  | cons k rest ih =>
    rintro ⟨j, hj, hnone⟩
    rcases List.mem_cons.mp hj with rfl | hj'
    · simp [primKeyLoop, hnone]
    · cases hk : item k with
      | none => simp [primKeyLoop, hk]
      | some v => simp [primKeyLoop, hk, ih ⟨j, hj', hnone⟩]

/-- Fact: `secKeyLoop` skips every index whose key attributes are not all
non-zero, advancing the position counter. -/
theorem secKeyLoop_skip (item : Item) (marker : Nat) (rest : List SecIndex) :
    ∀ (pre : List SecIndex) (i : Nat),
      (∀ j ∈ pre, j.keys.all (fun k => (item k).isSome) = false) →
      secKeyLoop item marker i (pre ++ rest) =
        secKeyLoop item marker (i + pre.length) rest := by
  intro pre
  induction pre with
  | nil => intro i _; simp
  | cons p ps ih =>
    intro i h
    have hp := h p (List.mem_cons_self p ps)
    have hrec := ih (i + 1) (fun j hj => h j (List.mem_cons_of_mem p hj))
    simp only [List.cons_append, secKeyLoop, hp, Bool.false_eq_true, if_false]
    have harith : i + 1 + ps.length = i + (p :: ps).length := by
      simp only [List.length_cons]
      omega
    rw [show ps.append rest = ps ++ rest from rfl, hrec, harith]

/-- Fact: `secKeyLoop` finds nothing when no index qualifies. -/
theorem secKeyLoop_none (item : Item) (marker : Nat) :
    ∀ (l : List SecIndex) (i : Nat),
      (∀ j ∈ l, j.keys.all (fun k => (item k).isSome) = false) →
      secKeyLoop item marker i l = none := by
  intro l
  induction l with
  | nil => intro i _; rfl
  | cons p ps ih =>
    intro i h
    have hp := h p (List.mem_cons_self p ps)
    simp only [secKeyLoop, hp, Bool.false_eq_true, if_false]
    exact ih (i + 1) (fun j hj => h j (List.mem_cons_of_mem p hj))

/-- A qualifying nonempty key list collects a nonempty value list. -/
theorem filterMap_keys_ne_nil (item : Item) (keys : List String)
    (hne : keys ≠ []) (hall : ∀ k ∈ keys, (item k).isSome) :
    (keys.filterMap (fun k => (item k).map ((k, ·)))).isEmpty = false := by
  cases keys with
  | nil => exact absurd rfl hne
  | cons k rest =>
    obtain ⟨v, hv⟩ := Option.isSome_iff_exists.mp
      (hall k (List.mem_cons_self k rest))
    simp [List.filterMap_cons, hv]

/-- C9: an item whose primary-key attributes are all non-zero resolves
to the primary key with an empty index name; when the primary key is
incomplete, `getKey` falls back to `getSecondaryKey`, which returns
the first index in the local-then-global order whose key attributes
are all non-zero, with that index's name and kind; when no index
qualifies the result is the no-valid-key error. -/
theorem getKey_primary_then_first_secondary (sch : Schema) (item : Item) :
    (sch.key ≠ [] → (∀ k ∈ sch.key, (item k).isSome) →
      getKey sch item =
        .ok ⟨sch.key.filterMap (fun k => (item k).map ((k, ·))), "", none⟩) ∧
    ((∃ k ∈ sch.key, item k = none) ∨ sch.key = [] →
      getKey sch item = getSecondaryKey sch item) ∧
    (∀ (pre : List SecIndex) (idx : SecIndex) (post : List SecIndex),
      sch.localIdx ++ sch.globalIdx = pre ++ idx :: post →
      (∀ j ∈ pre, j.keys.all (fun k => (item k).isSome) = false) →
      (∀ k ∈ idx.keys, (item k).isSome) →
      idx.keys ≠ [] →
      getSecondaryKey sch item =
        .ok ⟨idx.keys.filterMap (fun k => (item k).map ((k, ·))), idx.name,
          some (if sch.localIdx.length ≤ pre.length then .globalIndexType
                else .localIndexType)⟩) ∧
    ((∀ j ∈ sch.localIdx ++ sch.globalIdx,
        j.keys.all (fun k => (item k).isSome) = false) →
      getSecondaryKey sch item = .error .noValidKey) := by
  refine ⟨?_, ?_, ?_, ?_⟩
  · intro hne hall
    have hloop := primKeyLoop_ok item sch.key hall
    have hval := filterMap_keys_ne_nil item sch.key hne hall
    simp [getKey, getPrimaryKey, hloop, hval]
  · intro h
    rcases h with hex | hnil
    · simp [getKey, getPrimaryKey, primKeyLoop_err item sch.key hex]
    · simp [getKey, getPrimaryKey, hnil, primKeyLoop]
  · intro pre idx post hsplit hpre hall hne
    have hq : idx.keys.all (fun k => (item k).isSome) = true :=
      List.all_eq_true.mpr (fun k hk => hall k hk)
    have hskip := secKeyLoop_skip item sch.localIdx.length (idx :: post) pre 0 hpre
    have hstep : secKeyLoop item sch.localIdx.length (0 + pre.length)
        (idx :: post) =
        some ⟨idx.keys.filterMap (fun k => (item k).map ((k, ·))), idx.name,
          some (if sch.localIdx.length ≤ pre.length then .globalIndexType
                else .localIndexType)⟩ := by
      simp only [secKeyLoop, hq, if_true, Nat.zero_add, ge_iff_le]
    have hval := filterMap_keys_ne_nil item idx.keys hne hall
    simp only [Nat.zero_add] at hskip hstep
    have hempty : (idx.keys.filterMap (fun k => (item k).map ((k, ·)))) ≠ [] := by
      intro hcontra
      rw [hcontra] at hval
      simp at hval
    simp [getSecondaryKey, hsplit, hskip, hstep, hempty]
  · intro h
    simp [getSecondaryKey,
      secKeyLoop_none item sch.localIdx.length (sch.localIdx ++ sch.globalIdx) 0 h]

/-- Witness for C9 at a concrete schema and items: an item with full
primary key resolves to the primary key with an empty index name; an
item with only a global-index key resolves to that index's name and
global kind. -/
theorem getKey_primary_then_first_secondary_witness :
    getKey sampleSchema fullItem = .ok ⟨[("H", "h"), ("R", "r")], "", none⟩ ∧
    getSecondaryKey sampleSchema partialItem =
      .ok ⟨[("B", "b")], "G1", some .globalIndexType⟩ := by
  constructor
  · have h := (getKey_primary_then_first_secondary sampleSchema fullItem).1
      (by decide) (by decide)
    exact h.trans (by decide)
  · have h := (getKey_primary_then_first_secondary sampleSchema partialItem).2.2.1
      [⟨"L1", ["H", "A"]⟩] ⟨"G1", ["B"]⟩ [] rfl (by decide) (by decide)
      (by decide)
    exact h.trans (by decide)

/-- C6 is violated by the code: in a reachable `BatchDelete.Run` state
(27 items queued, the first batch of 25 returned entirely unprocessed)
the next `collectItems(25, carried)` call returns a request map with
27 payload entries, exceeding the batch size of 25, although the first
call respected the cap. -/
theorem collectItems_exceeds_batch_size :
    totalEntries firstCollect.1 = 25 ∧
    totalEntries secondCollect.1 = 27 ∧ 25 < totalEntries secondCollect.1 := by
  refine ⟨by decide, by decide, by decide⟩

theorem assocFind_map_replace [DecidableEq κ] (k : κ) (v : α) (k' : κ) :
    ∀ m : List (κ × α),
      assocFind (m.map (fun p => if p.1 = k then (k, v) else p)) k' =
        if k' = k then (if (assocFind m k).isSome then some v else none)
        else assocFind m k' := by
  intro m
  induction m with
  | nil => by_cases h : k' = k <;> simp [h, assocFind]
  | cons q rest ih =>
    obtain ⟨q1, q2⟩ := q
    simp only [List.map_cons]
    by_cases hq : q1 = k
    · rw [show (if ((q1, q2) : κ × α).1 = k then (k, v) else (q1, q2)) = (k, v)
        from if_pos hq]
      by_cases h : k' = k
      · subst h; subst hq
        simp [assocFind]
      · simp [assocFind, h, hq, ih]
    · rw [show (if ((q1, q2) : κ × α).1 = k then (k, v) else (q1, q2)) = (q1, q2)
        from if_neg hq]
      by_cases h : k' = q1
      · have hkk : ¬k' = k := fun hh => hq (h ▸ hh)
        simp [assocFind, h, hkk, hq]
      · have hk2 : ¬k = q1 := fun hh => hq hh.symm
        simp only [assocFind, if_neg h, if_neg hk2, ih]

theorem assocFind_append_right [DecidableEq κ] (k' : κ) :
    ∀ (m : List (κ × α)) (l : List (κ × α)),
      assocFind m k' = none → assocFind (m ++ l) k' = assocFind l k' := by
  intro m l
  induction m with
  | nil => intro _; rfl
  | cons q rest ih =>
    intro h
    obtain ⟨q1, q2⟩ := q
    by_cases hq : k' = q1
    · simp [assocFind, hq] at h
    · simp only [assocFind, if_neg hq] at h
      simp only [List.cons_append, assocFind, if_neg hq]
      exact ih h

theorem assocFind_append_left [DecidableEq κ] (k' : κ) :
    ∀ (m : List (κ × α)) (l : List (κ × α)) (v : α),
      assocFind m k' = some v → assocFind (m ++ l) k' = some v := by
  intro m l
  induction m with
  | nil => intro v h; cases h
  | cons q rest ih =>
    intro v h
    obtain ⟨q1, q2⟩ := q
    by_cases hq : k' = q1
    · simp only [assocFind, if_pos hq] at h
      simp only [List.cons_append, assocFind, if_pos hq]
      exact h
    · simp only [assocFind, if_neg hq] at h
      simp only [List.cons_append, assocFind, if_neg hq]
      exact ih v h

theorem assocFind_mapPut [DecidableEq κ] (m : List (κ × α)) (k : κ) (v : α)
    (k' : κ) :
    assocFind (mapPut m k v) k' =
      if k' = k then some v else assocFind m k' := by
  unfold mapPut
  cases hk : assocFind m k with
  | some w =>
    simp only [hk, Option.isSome_some, if_true]
    rw [assocFind_map_replace]
    by_cases h : k' = k <;> simp [h, hk]
  | none =>
    simp only [hk, Option.isSome_none, Bool.false_eq_true, if_false]
    by_cases h : k' = k
    · subst h
      rw [assocFind_append_right k' m [(k', v)] hk]
      simp [assocFind]
    · cases hk' : assocFind m k' with
      | some w =>
        rw [assocFind_append_left k' m [(k, v)] w hk']
        simp [h, hk']
      | none =>
        rw [assocFind_append_right k' m [(k, v)] hk']
        simp [assocFind, h]

theorem assocFind_mapAppend [DecidableEq κ] (m : List (κ × List β)) (k : κ)
    (x : β) (k' : κ) :
    assocFind (mapAppend m k x) k' =
      if k' = k then some ((assocFind m k).getD [] ++ [x])
      else assocFind m k' := by
  unfold mapAppend
  rw [assocFind_mapPut]


theorem occIdxFrom_nil_iff (k : String) :
    ∀ (items : List InItem) (n : Nat),
      occIdxFrom n k items = [] ↔ ∀ it ∈ items, it.key ≠ some k := by
  intro items
  induction items with
  | nil => intro n; simp [occIdxFrom]
  | cons it rest ih =>
    intro n
    by_cases h : it.key = some k
    · simp [occIdxFrom, h]
    · simp only [occIdxFrom, h, if_false]
      constructor
      · intro he it' hmem
        rcases List.mem_cons.mp hmem with rfl | hmem'
        · exact h
        · exact ((ih (n + 1)).mp he) it' hmem'
      · intro hall
        exact (ih (n + 1)).mpr
          (fun it' hm => hall it' (List.mem_cons_of_mem it hm))

theorem occIdxFrom_ge (k : String) :
    ∀ (items : List InItem) (n m : Nat),
      m ∈ occIdxFrom n k items → n ≤ m := by
  intro items
  induction items with
  | nil => intro n m h; simp [occIdxFrom] at h
  | cons it rest ih =>
    intro n m h
    by_cases hk : it.key = some k
    · rw [occIdxFrom, if_pos hk] at h
      rcases List.mem_cons.mp h with rfl | h'
      · exact le_rfl
      · exact Nat.le_of_succ_le (ih (n + 1) m h')
    · rw [occIdxFrom, if_neg hk] at h
      exact Nat.le_of_succ_le (ih (n + 1) m h)

theorem mem_occIdxFrom (k : String) :
    ∀ (items : List InItem) (n i : Nat),
      i ∈ occIdxFrom n k items ↔
        ∃ j it, i = n + j ∧ items[j]? = some it ∧ it.key = some k := by
  intro items
  induction items with
  | nil =>
    intro n i
    simp [occIdxFrom]
  | cons it rest ih =>
    intro n i
    constructor
    · intro h
      by_cases hk : it.key = some k
      · rw [occIdxFrom, if_pos hk] at h
        rcases List.mem_cons.mp h with rfl | h'
        · exact ⟨0, it, by omega, by simp, hk⟩
        · obtain ⟨j, it', hij, hjth, hkey⟩ := (ih (n + 1) i).mp h'
          exact ⟨j + 1, it', by omega, by simpa using hjth, hkey⟩
      · rw [occIdxFrom, if_neg hk] at h
        obtain ⟨j, it', hij, hjth, hkey⟩ := (ih (n + 1) i).mp h
        exact ⟨j + 1, it', by omega, by simpa using hjth, hkey⟩
    · rintro ⟨j, it', hij, hjth, hkey⟩
      cases j with
      | zero =>
        simp only [List.getElem?_cons_zero, Option.some.injEq] at hjth
        subst hjth
        rw [occIdxFrom, if_pos hkey]
        have : i = n := by omega
        subst this
        exact List.mem_cons_self _ _
      | succ j' =>
        simp only [List.getElem?_cons_succ] at hjth
        have hmem : i ∈ occIdxFrom (n + 1) k rest :=
          (ih (n + 1) i).mpr ⟨j', it', by omega, hjth, hkey⟩
        by_cases hk : it.key = some k
        · rw [occIdxFrom, if_pos hk]
          exact List.mem_cons_of_mem _ hmem
        · rw [occIdxFrom, if_neg hk]
          exact hmem

theorem getLastMem {α : Type} : ∀ (l : List α) (x : α),
    l.getLast? = some x → x ∈ l
  | [], x, h => by cases h
  | [a], x, h => by
    simp only [List.getLast?_singleton, Option.some.injEq] at h
    subst h
    exact List.mem_singleton_self a
  | a :: b :: l, x, h => by
    rw [List.getLast?_cons_cons] at h
    exact List.mem_cons_of_mem a (getLastMem (b :: l) x h)

theorem getLast_cons_ne {α : Type} (a : α) (l : List α) (h : l ≠ []) :
    (a :: l).getLast? = l.getLast? := by
  cases l with
  | nil => exact absurd rfl h
  | cons b l' => exact List.getLast?_cons_cons


theorem getLast_occIdxFrom (k : String) :
    ∀ (items : List InItem) (n j : Nat) (it : InItem),
      items[j]? = some it → it.key = some k →
      ((occIdxFrom n k items).getLast? = some (n + j) ↔
        (items.drop (j + 1)).all (fun x => x.key ≠ some k) = true) := by
  intro items
  induction items with
  | nil => intro n j it h _; simp at h
  | cons it0 rest ih =>
    intro n j it hjth hkey
    cases j with
    | zero =>
      simp only [List.getElem?_cons_zero, Option.some.injEq] at hjth
      rw [← hjth] at hkey
      rw [occIdxFrom, if_pos hkey]
      rw [show (it0 :: rest).drop (0 + 1) = rest from rfl]
      cases hl : occIdxFrom (n + 1) k rest with
      | nil =>
        have hall : ∀ x ∈ rest, x.key ≠ some k :=
          (occIdxFrom_nil_iff k rest (n + 1)).mp hl
        simp only [List.getLast?_singleton, Option.some.injEq]
        constructor
        · intro _
          simp only [List.all_eq_true, decide_eq_true_eq]
          exact hall
        · intro _
          omega
      | cons m l' =>
        have hne : occIdxFrom (n + 1) k rest ≠ [] := by rw [hl]; simp
        have hex : ¬(∀ x ∈ rest, x.key ≠ some k) := by
          intro hall
          exact hne ((occIdxFrom_nil_iff k rest (n + 1)).mpr hall)
        constructor
        · intro hlast
          rw [List.getLast?_cons_cons] at hlast
          have hmem := getLastMem _ _ hlast
          rw [← hl] at hmem
          have hge := occIdxFrom_ge k rest (n + 1) _ hmem
          omega
        · intro hall
          simp only [List.all_eq_true, decide_eq_true_eq] at hall
          exact absurd hall hex
    | succ j' =>
      simp only [List.getElem?_cons_succ] at hjth
      have hdrop : (it0 :: rest).drop (j' + 1 + 1) = rest.drop (j' + 1) := rfl
      rw [hdrop]
      have harith : n + (j' + 1) = (n + 1) + j' := by omega
      rw [harith]
      have hrec := ih (n + 1) j' it hjth hkey
      by_cases hk : it0.key = some k
      · rw [occIdxFrom, if_pos hk]
        have hne : occIdxFrom (n + 1) k rest ≠ [] := by
          intro hnil
          have := (occIdxFrom_nil_iff k rest (n + 1)).mp hnil
          have hmem : it ∈ rest := by
            have := List.getElem?_mem hjth
            exact this
          exact (this it hmem) hkey
        rw [getLast_cons_ne n _ hne]
        exact hrec
      · rw [occIdxFrom, if_neg hk]
        exact hrec

theorem combineIdx_nil (o : Option (List Nat)) : combineIdx o [] = o := by
  cases o <;> simp [combineIdx]

theorem combineIdx_snoc (g : List Nat) (i : Nat) (l : List Nat) :
    combineIdx (some (g ++ [i])) l = some (g ++ i :: l) := by
  simp [combineIdx]

theorem combineIdx_cons (o : Option (List Nat)) (i : Nat) (l : List Nat) :
    combineIdx o (i :: l) = some (o.getD [] ++ i :: l) := by
  cases o <;> simp [combineIdx]

theorem addLoop_spec (table : String) (ko : Bool) :
    ∀ (items : List InItem) (i : Nat) (acc : AddAcc),
      (addLoop table ko i items acc).slots =
        acc.slots ++ items.map (fun it => it.key.map (fun k => mkPL ko k it.data)) ∧
      (∀ k : String,
        assocFind (addLoop table ko i items acc).dups (table, k) =
          combineIdx (assocFind acc.dups (table, k)) (occIdxFrom i k items)) ∧
      (∀ k : String,
        assocFind (addLoop table ko i items acc).itemIdxs (table, k) =
          combineIdx (assocFind acc.itemIdxs (table, k)) (occIdxFrom i k items)) ∧
      (∀ k : String,
        assocFind (addLoop table ko i items acc).unprocIdxs (table, k) =
          combineIdx (assocFind acc.unprocIdxs (table, k)) (occIdxFrom i k items)) := by
  intro items
  induction items with
  | nil =>
    intro i acc
    refine ⟨by simp [addLoop], ?_, ?_, ?_⟩ <;>
      intro k <;> simp [addLoop, occIdxFrom, combineIdx_nil]
  | cons it rest ih =>
    intro i acc
    cases hkey : it.key with
    | none =>
      obtain ⟨hs, hd, hi, hu⟩ := ih (i + 1)
        { acc with errs := mapPut acc.errs (table, i) .incompletePrimaryKey,
                   slots := acc.slots ++ [none] }
      rw [show addLoop table ko i (it :: rest) acc =
        addLoop table ko (i + 1) rest
          { acc with errs := mapPut acc.errs (table, i) .incompletePrimaryKey,
                     slots := acc.slots ++ [none] } from by
        rw [addLoop, hkey]]
      refine ⟨?_, ?_, ?_, ?_⟩
      · rw [hs]
        simp [hkey]
      · intro k
        rw [hd k]
        rw [show occIdxFrom i k (it :: rest) = occIdxFrom (i + 1) k rest from by
          rw [occIdxFrom, if_neg (by simp [hkey])]]
      · intro k
        rw [hi k]
        rw [show occIdxFrom i k (it :: rest) = occIdxFrom (i + 1) k rest from by
          rw [occIdxFrom, if_neg (by simp [hkey])]]
      · intro k
        rw [hu k]
        rw [show occIdxFrom i k (it :: rest) = occIdxFrom (i + 1) k rest from by
          rw [occIdxFrom, if_neg (by simp [hkey])]]
    | some k0 =>
      obtain ⟨hs, hd, hi, hu⟩ := ih (i + 1)
        { itemIdxs := mapAppend acc.itemIdxs (table, k0) i,
          unprocIdxs := mapAppend acc.unprocIdxs (table, k0) i,
          dups := mapAppend acc.dups (table, k0) i,
          errs := acc.errs,
          slots := acc.slots ++ [some (mkPL ko k0 it.data)] }
      rw [show addLoop table ko i (it :: rest) acc =
        addLoop table ko (i + 1) rest
          { itemIdxs := mapAppend acc.itemIdxs (table, k0) i,
            unprocIdxs := mapAppend acc.unprocIdxs (table, k0) i,
            dups := mapAppend acc.dups (table, k0) i,
            errs := acc.errs,
            slots := acc.slots ++ [some (mkPL ko k0 it.data)] } from by
        rw [addLoop, hkey]]
      refine ⟨?_, ?_, ?_, ?_⟩
      · rw [hs]
        simp [hkey]
      · intro k
        have hrw := hd k
        by_cases hk : k = k0
        · rw [show assocFind (mapAppend acc.dups (table, k0) i) (table, k)
              = some ((assocFind acc.dups (table, k)).getD [] ++ [i]) from by
            rw [assocFind_mapAppend,
              if_pos (show ((table, k) : IKey) = (table, k0) from by rw [hk]), hk]]
            at hrw
          rw [hrw]
          rw [show occIdxFrom i k (it :: rest) = i :: occIdxFrom (i + 1) k rest
            from by rw [occIdxFrom, if_pos (by rw [hk]; exact hkey)]]
          rw [combineIdx_snoc, combineIdx_cons]
        · have hne : ((table, k) : IKey) ≠ (table, k0) := by simp [hk]
          rw [show assocFind (mapAppend acc.dups (table, k0) i) (table, k)
              = assocFind acc.dups (table, k) from by
            rw [assocFind_mapAppend, if_neg hne]] at hrw
          rw [hrw]
          rw [show occIdxFrom i k (it :: rest) = occIdxFrom (i + 1) k rest from by
            rw [occIdxFrom, if_neg (by simp [hkey]; exact fun hh => hk hh.symm)]]
      · intro k
        have hrw := hi k
        by_cases hk : k = k0
        · rw [show assocFind (mapAppend acc.itemIdxs (table, k0) i) (table, k)
              = some ((assocFind acc.itemIdxs (table, k)).getD [] ++ [i]) from by
            rw [assocFind_mapAppend,
              if_pos (show ((table, k) : IKey) = (table, k0) from by rw [hk]), hk]]
            at hrw
          rw [hrw]
          rw [show occIdxFrom i k (it :: rest) = i :: occIdxFrom (i + 1) k rest
            from by rw [occIdxFrom, if_pos (by rw [hk]; exact hkey)]]
          rw [combineIdx_snoc, combineIdx_cons]
        · have hne : ((table, k) : IKey) ≠ (table, k0) := by simp [hk]
          rw [show assocFind (mapAppend acc.itemIdxs (table, k0) i) (table, k)
              = assocFind acc.itemIdxs (table, k) from by
            rw [assocFind_mapAppend, if_neg hne]] at hrw
          rw [hrw]
          rw [show occIdxFrom i k (it :: rest) = occIdxFrom (i + 1) k rest from by
            rw [occIdxFrom, if_neg (by simp [hkey]; exact fun hh => hk hh.symm)]]
      · intro k
        have hrw := hu k
        by_cases hk : k = k0
        · rw [show assocFind (mapAppend acc.unprocIdxs (table, k0) i) (table, k)
              = some ((assocFind acc.unprocIdxs (table, k)).getD [] ++ [i]) from by
            rw [assocFind_mapAppend,
              if_pos (show ((table, k) : IKey) = (table, k0) from by rw [hk]), hk]]
            at hrw
          rw [hrw]
          rw [show occIdxFrom i k (it :: rest) = i :: occIdxFrom (i + 1) k rest
            from by rw [occIdxFrom, if_pos (by rw [hk]; exact hkey)]]
          rw [combineIdx_snoc, combineIdx_cons]
        · have hne : ((table, k) : IKey) ≠ (table, k0) := by simp [hk]
          rw [show assocFind (mapAppend acc.unprocIdxs (table, k0) i) (table, k)
              = assocFind acc.unprocIdxs (table, k) from by
            rw [assocFind_mapAppend, if_neg hne]] at hrw
          rw [hrw]
          rw [show occIdxFrom i k (it :: rest) = occIdxFrom (i + 1) k rest from by
            rw [occIdxFrom, if_neg (by simp [hkey]; exact fun hh => hk hh.symm)]]

theorem getD_out {α : Type} : ∀ (s : List α) (j : Nat) (d : α),
    s.length ≤ j → s.getD j d = d
  | [], _, _, _ => rfl
  | _ :: t, j + 1, d, h => getD_out t j d (Nat.le_of_succ_le_succ h)

theorem getD_set_self {α : Type} :
    ∀ (s : List α) (j : Nat) (v d : α), j < s.length →
      (s.set j v).getD j d = v
  | [], j, _, _, h => absurd h (Nat.not_lt_zero j)
  | _ :: _, 0, _, _, _ => rfl
  | _ :: t, j + 1, v, d, h =>
    getD_set_self t j v d (Nat.lt_of_succ_lt_succ h)

theorem getD_set_ne {α : Type} :
    ∀ (s : List α) (i j : Nat) (v d : α), j ≠ i →
      (s.set i v).getD j d = s.getD j d
  | [], _, _, _, _, _ => rfl
  | _ :: _, 0, 0, _, _, h => absurd rfl h
  | _ :: _, 0, _ + 1, _, _, _ => rfl
  | _ :: _, _ + 1, 0, _, _, _ => rfl
  | _ :: t, i + 1, j + 1, v, d, h =>
    getD_set_ne t i j v d (fun he => h (by rw [he]))

theorem getD_set_none {β : Type} (s : List (Option β)) (j : Nat) :
    (s.set j none).getD j none = none := by
  by_cases h : j < s.length
  · exact getD_set_self s j none none h
  · exact getD_out _ j none (by rw [List.length_set]; omega)

theorem foldSet_length {β : Type} :
    ∀ (idxs : List Nat) (s : List (Option β)),
      (idxs.foldl (fun s j => s.set j none) s).length = s.length
  | [], _ => rfl
  | i :: rest, s => by
    rw [List.foldl_cons, foldSet_length rest, List.length_set]

theorem foldSet_getD {β : Type} :
    ∀ (idxs : List Nat) (s : List (Option β)) (j : Nat),
      (idxs.foldl (fun s j => s.set j none) s).getD j none =
        if j ∈ idxs then none else s.getD j none
  | [], s, j => by
    rw [List.foldl_nil, if_neg (List.not_mem_nil j)]
  | i :: rest, s, j => by
    rw [List.foldl_cons, foldSet_getD rest]
    by_cases hr : j ∈ rest
    · rw [if_pos hr, if_pos (List.mem_cons_of_mem i hr)]
    · rw [if_neg hr]
      by_cases hj : j = i
      · rw [if_pos (by rw [hj]; exact List.mem_cons_self i rest)]
        rw [hj]
        exact getD_set_none s i
      · have hnm : j ∉ i :: rest := by
          intro hm
          rcases List.mem_cons.mp hm with h | h
          · exact hj h
          · exact hr h
        rw [if_neg hnm]
        exact getD_set_ne s i j none none hj

theorem nilDups_length (s : List (Option PL)) (idxs : List Nat) :
    (nilDups s idxs).length = s.length := by
  unfold nilDups
  cases idxs.getLast? with
  | none => rfl
  | some last => rw [List.length_set, foldSet_length]

theorem nilDups_getD (s : List (Option PL)) (idxs : List Nat) (j : Nat) :
    (nilDups s idxs).getD j none =
      if j ∈ idxs then
        (if idxs.getLast? = some j then s.getD j none else none)
      else s.getD j none := by
  unfold nilDups
  cases hl : idxs.getLast? with
  | none =>
    rw [List.getLast?_eq_none_iff] at hl
    subst hl
    rw [if_neg (List.not_mem_nil j)]
  | some last =>
    have hmem := getLastMem idxs last hl
    by_cases hj : j = last
    · rw [if_pos (by rw [hj]; exact hmem), if_pos (by rw [hj])]
      by_cases h : j < s.length
      · rw [hj]
        rw [getD_set_self _ last _ none (by rw [foldSet_length]; exact hj ▸ h)]
      · rw [getD_out _ j none
          (by rw [List.length_set, foldSet_length]; omega)]
        rw [getD_out s j none (by omega)]
    · rw [getD_set_ne _ last j _ none hj, foldSet_getD]
      by_cases hin : j ∈ idxs
      · have hng : ¬(some last : Option Nat) = some j := by
          intro hc
          exact hj (Option.some.inj hc).symm
        rw [if_pos hin, if_pos hin, if_neg hng]
      · rw [if_neg hin, if_neg hin]

theorem foldNil_length :
    ∀ (es : List (IKey × List Nat)) (s : List (Option PL)),
      (es.foldl (fun s e => nilDups s e.2) s).length = s.length
  | [], _ => rfl
  | e :: rest, s => by
    rw [List.foldl_cons, foldNil_length rest, nilDups_length]

theorem foldNil_skip :
    ∀ (es : List (IKey × List Nat)) (s : List (Option PL)) (j : Nat),
      (∀ e ∈ es, j ∉ e.2) →
      (es.foldl (fun s e => nilDups s e.2) s).getD j none = s.getD j none
  | [], _, _, _ => rfl
  | e :: rest, s, j, h => by
    rw [List.foldl_cons, foldNil_skip rest _ j
      (fun e' he' => h e' (List.mem_cons_of_mem e he'))]
    rw [nilDups_getD, if_neg (h e (List.mem_cons_self e rest))]

theorem foldNil_hit (es₁ es₂ : List (IKey × List Nat)) (e : IKey × List Nat)
    (s : List (Option PL)) (j : Nat)
    (h1 : ∀ e' ∈ es₁, j ∉ e'.2) (h2 : ∀ e' ∈ es₂, j ∉ e'.2)
    (hj : j ∈ e.2) :
    ((es₁ ++ e :: es₂).foldl (fun s e => nilDups s e.2) s).getD j none =
      if e.2.getLast? = some j then s.getD j none else none := by
  rw [List.foldl_append, List.foldl_cons]
  rw [foldNil_skip es₂ _ j h2]
  rw [nilDups_getD, if_pos hj]
  rw [foldNil_skip es₁ s j h1]

theorem assocFind_eq_none [DecidableEq κ] (k : κ) :
    ∀ m : List (κ × α), assocFind m k = none ↔ ∀ e ∈ m, e.1 ≠ k
  | [] => by simp [assocFind]
  | (k', v) :: rest => by
    by_cases h : k = k'
    · simp [assocFind, h]
    · rw [show assocFind ((k', v) :: rest) k = assocFind rest k from by
        rw [assocFind, if_neg h]]
      rw [assocFind_eq_none k rest]
      constructor
      · intro hall e he
        rcases List.mem_cons.mp he with rfl | he'
        · exact fun hc => h hc.symm
        · exact hall e he'
      · intro hall e he
        exact hall e (List.mem_cons_of_mem _ he)

theorem assocFind_split [DecidableEq κ] (k : κ) (v : α) :
    ∀ m : List (κ × α), assocFind m k = some v →
      ∃ m₁ m₂, m = m₁ ++ (k, v) :: m₂ ∧ ∀ e ∈ m₁, e.1 ≠ k
  | [], h => by cases h
  | (k', v') :: rest, h => by
    by_cases hk : k = k'
    · rw [assocFind, if_pos hk] at h
      refine ⟨[], rest, ?_, by simp⟩
      rw [← hk, Option.some.inj h]
      rfl
    · rw [assocFind, if_neg hk] at h
      obtain ⟨m₁, m₂, heq, hne⟩ := assocFind_split k v rest h
      refine ⟨(k', v') :: m₁, m₂, by rw [heq]; rfl, ?_⟩
      intro e he
      rcases List.mem_cons.mp he with rfl | he'
      · exact fun hc => hk hc.symm
      · exact hne e he'

theorem keys_mapPut [DecidableEq κ] (k : κ) (v : α) :
    ∀ m : List (κ × α),
      (mapPut m k v).map Prod.fst =
        if (assocFind m k).isSome then m.map Prod.fst
        else m.map Prod.fst ++ [k] := by
  intro m
  unfold mapPut
  by_cases h : (assocFind m k).isSome
  · rw [if_pos h, if_pos h, List.map_map]
    have : (Prod.fst ∘ fun p : κ × α => if p.1 = k then (k, v) else p) =
        Prod.fst := by
      funext p
      by_cases hp : p.1 = k
      · simp [hp]
      · simp [hp]
    rw [this]
  · rw [if_neg h, if_neg h, List.map_append]
    rfl

theorem nodup_keys_mapPut [DecidableEq κ] (m : List (κ × α)) (k : κ) (v : α)
    (h : (m.map Prod.fst).Nodup) : ((mapPut m k v).map Prod.fst).Nodup := by
  rw [keys_mapPut]
  by_cases hs : (assocFind m k).isSome
  · rw [if_pos hs]
    exact h
  · rw [if_neg hs]
    have hnone : assocFind m k = none := by
      cases hx : assocFind m k
      · rfl
      · rw [hx] at hs
        simp at hs
    have hnotin : k ∉ m.map Prod.fst := by
      intro hmem
      obtain ⟨e, he, hek⟩ := List.mem_map.mp hmem
      exact ((assocFind_eq_none k m).mp hnone e he) hek
    simp [List.nodup_append, h, hnotin]

theorem keyshape_mapPut [DecidableEq κ] (P : κ → Prop) (m : List (κ × α))
    (k : κ) (v : α) (hm : ∀ e ∈ m, P e.1) (hk : P k) :
    ∀ e ∈ mapPut m k v, P e.1 := by
  intro e he
  unfold mapPut at he
  by_cases hs : (assocFind m k).isSome
  · rw [if_pos hs] at he
    obtain ⟨p, hp, hpe⟩ := List.mem_map.mp he
    by_cases hpk : p.1 = k
    · rw [if_pos hpk] at hpe
      rw [← hpe]
      exact hk
    · rw [if_neg hpk] at hpe
      rw [← hpe]
      exact hm p hp
  · rw [if_neg hs] at he
    rcases List.mem_append.mp he with h | h
    · exact hm e h
    · rw [List.mem_singleton.mp h]
      exact hk

theorem nodup_keys_mapAppend [DecidableEq κ] (m : List (κ × List Nat))
    (k : κ) (x : Nat) (h : (m.map Prod.fst).Nodup) :
    ((mapAppend m k x).map Prod.fst).Nodup := by
  unfold mapAppend
  exact nodup_keys_mapPut m k _ h

theorem keyshape_mapAppend [DecidableEq κ] (P : κ → Prop)
    (m : List (κ × List Nat)) (k : κ) (x : Nat)
    (hm : ∀ e ∈ m, P e.1) (hk : P k) : ∀ e ∈ mapAppend m k x, P e.1 := by
  unfold mapAppend
  exact keyshape_mapPut P m k _ hm hk

theorem addLoop_dups_inv (table : String) (ko : Bool) :
    ∀ (items : List InItem) (i : Nat) (acc : AddAcc),
      (acc.dups.map Prod.fst).Nodup → (∀ e ∈ acc.dups, e.1.1 = table) →
      ((addLoop table ko i items acc).dups.map Prod.fst).Nodup ∧
        ∀ e ∈ (addLoop table ko i items acc).dups, e.1.1 = table
  | [], _, _, h1, h2 => ⟨h1, h2⟩
  | it :: rest, i, acc, h1, h2 => by
    cases hkey : it.key with
    | none =>
      rw [show addLoop table ko i (it :: rest) acc =
        addLoop table ko (i + 1) rest
          { acc with errs := mapPut acc.errs (table, i) .incompletePrimaryKey,
                     slots := acc.slots ++ [none] } from by
        rw [addLoop, hkey]]
      exact addLoop_dups_inv table ko rest (i + 1) _ h1 h2
    | some k =>
      rw [show addLoop table ko i (it :: rest) acc =
        addLoop table ko (i + 1) rest
          { itemIdxs := mapAppend acc.itemIdxs (table, k) i,
            unprocIdxs := mapAppend acc.unprocIdxs (table, k) i,
            dups := mapAppend acc.dups (table, k) i,
            errs := acc.errs,
            slots := acc.slots ++ [some (mkPL ko k it.data)] } from by
        rw [addLoop, hkey]]
      exact addLoop_dups_inv table ko rest (i + 1) _
        (nodup_keys_mapAppend acc.dups (table, k) i h1)
        (keyshape_mapAppend (fun ik => ik.1 = table) acc.dups (table, k) i
          h2 rfl)

theorem combineIdx_none_some (l v : List Nat)
    (h : combineIdx none l = some v) : v = l := by
  cases l with
  | nil => cases h
  | cons a t =>
    simp [combineIdx] at h
    exact h.symm

theorem combineIdx_none_ne (l : List Nat) (h : l ≠ []) :
    combineIdx none l = some l := by
  cases l with
  | nil => exact absurd rfl h
  | cons a t => simp [combineIdx]

theorem fanOut_applied (table : String) (item : PL)
    (f : String → Nat → PL → Option DynErr) :
    ∀ (idxs : List Nat) (errs : List ((String × Nat) × DynErr))
      (applied : List (String × Nat × PL)),
      (fanOut table item idxs f errs applied).2 =
        applied ++ idxs.map (fun idx => (table, idx, item))
  | [], errs, applied => by simp [fanOut]
  | idx :: rest, errs, applied => by
    rw [fanOut]
    cases f table idx item with
    | some e =>
      rw [fanOut_applied table item f rest]
      simp
    | none =>
      rw [fanOut_applied table item f rest]
      simp

theorem getD_eq {α : Type} :
    ∀ (s : List α) (j : Nat) (d : α), s.getD j d = (s[j]?).getD d
  | [], j, d => by
    rw [List.getElem?_nil]
    rfl
  | _ :: _, 0, d => by
    rw [List.getElem?_cons_zero]
    rfl
  | _ :: t, j + 1, d => by
    rw [List.getElem?_cons_succ]
    exact getD_eq t j d

theorem map_getElem_some {α β : Type} (f : α → β) :
    ∀ (l : List α) (j : Nat) (it : α), l[j]? = some it →
      (l.map f)[j]? = some (f it)
  | a :: _, 0, it, h => by
    rw [List.getElem?_cons_zero] at h
    have h' : a = it := Option.some.inj h
    subst h'
    rw [List.map_cons, List.getElem?_cons_zero]
  | _ :: t, j + 1, it, h => by
    rw [List.getElem?_cons_succ] at h
    rw [List.map_cons, List.getElem?_cons_succ]
    exact map_getElem_some f t j it h
  | [], j, it, h => by
    rw [List.getElem?_nil] at h
    cases h

theorem mem_assocFind_of_nodup [DecidableEq κ] :
    ∀ (m : List (κ × α)), (m.map Prod.fst).Nodup →
      ∀ (k : κ) (v : α), (k, v) ∈ m → assocFind m k = some v
  | [], _, _, _, h => absurd h (List.not_mem_nil _)
  | (k', v') :: rest, hnd, k, v, h => by
    rcases List.mem_cons.mp h with he | he
    · have h1 : k = k' := congrArg Prod.fst he
      have h2 : v = v' := congrArg Prod.snd he
      rw [assocFind, if_pos h1, h2]
    · rw [List.map_cons, List.nodup_cons] at hnd
      by_cases hk : k = k'
      · exfalso
        apply hnd.1
        rw [← hk]
        exact List.mem_map.mpr ⟨(k, v), he, rfl⟩
      · rw [assocFind, if_neg hk]
        exact mem_assocFind_of_nodup rest hnd.2 k v he

theorem addItems_unproc (b : BatchOp) (table : String) (items : List InItem)
    (ko : Bool) (h : items.isEmpty = false) :
    (addItems b table items ko).unproc =
      mapPut b.unproc table
        ((addAcc0 b table ko items).dups.foldl (fun s e => nilDups s e.2)
          (addAcc0 b table ko items).slots) := by
  unfold addItems addAcc0
  rw [h, if_neg Bool.false_ne_true]

theorem addItems_itemIdxs (b : BatchOp) (table : String)
    (items : List InItem) (ko : Bool) (h : items.isEmpty = false) :
    (addItems b table items ko).itemIdxs =
      (addAcc0 b table ko items).itemIdxs := by
  unfold addItems addAcc0
  rw [h, if_neg Bool.false_ne_true]

theorem addItems_slots_char (b : BatchOp) (table : String) (ko : Bool)
    (items : List InItem) (hne : items ≠ []) :
    ∃ slots,
      assocFind (addItems b table items ko).unproc table = some slots ∧
      slots.length = items.length ∧
      (∀ j it, items[j]? = some it →
        (it.key = none → slots.getD j none = none) ∧
        (∀ k, it.key = some k →
          slots.getD j none =
            if (items.drop (j + 1)).all (fun x => x.key ≠ some k) = true
            then some (mkPL ko k it.data) else none)) := by
  have hni : items.isEmpty = false := by
    cases items with
    | nil => exact absurd rfl hne
    | cons a t => rfl
  have hAeq : addLoop table ko 0 items
      ⟨b.itemIdxs, b.unprocIdxs, [], b.errs, []⟩ = addAcc0 b table ko items :=
    rfl
  obtain ⟨hs, hd, hi2, hu⟩ :=
    addLoop_spec table ko items 0 ⟨b.itemIdxs, b.unprocIdxs, [], b.errs, []⟩
  obtain ⟨hnd, hshape⟩ := addLoop_dups_inv table ko items 0
    ⟨b.itemIdxs, b.unprocIdxs, [], b.errs, []⟩ (by simp) (by simp)
  rw [hAeq] at hs hnd hshape
  have hd' : ∀ k : String,
      assocFind (addAcc0 b table ko items).dups (table, k) =
        combineIdx none (occIdxFrom 0 k items) := fun k => hd k
  have hs' : (addAcc0 b table ko items).slots =
      items.map (fun it => it.key.map (fun k => mkPL ko k it.data)) := by
    rw [hs]
    exact List.nil_append _
  have hother : ∀ (k : String), ∀ e' ∈ (addAcc0 b table ko items).dups,
      ∀ j it, items[j]? = some it → it.key = some k →
      e'.1 ≠ ((table, k) : IKey) → j ∉ e'.2 := by
    intro k e' he' j it hjth hksome hne' hj'
    have hsh := hshape e' he'
    have hpair : e'.1 = (table, e'.1.2) := by rw [← hsh]
    have hfind := mem_assocFind_of_nodup _ hnd e'.1 e'.2 he'
    rw [hpair, hd' e'.1.2] at hfind
    have hv : e'.2 = occIdxFrom 0 e'.1.2 items :=
      combineIdx_none_some _ _ hfind
    rw [hv] at hj'
    obtain ⟨j', it', hij, hjth', hkey'⟩ :=
      (mem_occIdxFrom e'.1.2 items 0 j).mp hj'
    have hjj : j' = j := by omega
    subst hjj
    rw [hjth] at hjth'
    have hit : it = it' := Option.some.inj hjth'
    rw [← hit] at hkey'
    rw [hksome] at hkey'
    have hkk : k = e'.1.2 := Option.some.inj hkey'
    apply hne'
    rw [hpair, ← hkk]
  refine ⟨(addAcc0 b table ko items).dups.foldl (fun s e => nilDups s e.2)
    (addAcc0 b table ko items).slots, ?_, ?_, ?_⟩
  · rw [addItems_unproc b table items ko hni, assocFind_mapPut, if_pos rfl]
  · rw [foldNil_length, hs', List.length_map]
  · intro j it hjth
    constructor
    · intro hknone
      have hskip : ∀ e' ∈ (addAcc0 b table ko items).dups, j ∉ e'.2 := by
        intro e' he' hj'
        have hsh := hshape e' he'
        have hpair : e'.1 = (table, e'.1.2) := by rw [← hsh]
        have hfind := mem_assocFind_of_nodup _ hnd e'.1 e'.2 he'
        rw [hpair, hd' e'.1.2] at hfind
        have hv : e'.2 = occIdxFrom 0 e'.1.2 items :=
          combineIdx_none_some _ _ hfind
        rw [hv] at hj'
        obtain ⟨j', it', hij, hjth', hkey'⟩ :=
          (mem_occIdxFrom e'.1.2 items 0 j).mp hj'
        have hjj : j' = j := by omega
        subst hjj
        rw [hjth] at hjth'
        have hit : it = it' := Option.some.inj hjth'
        rw [← hit] at hkey'
        rw [hknone] at hkey'
        cases hkey'
      rw [foldNil_skip _ _ j hskip, hs', getD_eq,
        map_getElem_some _ items j it hjth]
      rw [show (some (it.key.map (fun k => mkPL ko k it.data))).getD none =
        it.key.map (fun k => mkPL ko k it.data) from rfl]
      rw [hknone]
      rfl
    · intro k hksome
      have hjmem : j ∈ occIdxFrom 0 k items :=
        (mem_occIdxFrom k items 0 j).mpr
          ⟨j, it, (Nat.zero_add j).symm, hjth, hksome⟩
      have hocc_ne : occIdxFrom 0 k items ≠ [] := by
        intro hnil
        rw [hnil] at hjmem
        exact List.not_mem_nil j hjmem
      have hfindk : assocFind (addAcc0 b table ko items).dups (table, k) =
          some (occIdxFrom 0 k items) := by
        rw [hd' k]
        exact combineIdx_none_ne _ hocc_ne
      obtain ⟨m₁, m₂, heq, hm1⟩ := assocFind_split (table, k) _ _ hfindk
      have hnd' := hnd
      rw [heq, List.map_append, List.map_cons] at hnd'
      have hknotm2 : ((table, k) : IKey) ∉ m₂.map Prod.fst := by
        have h2 := (List.nodup_append.mp hnd').2.1
        exact (List.nodup_cons.mp h2).1
      have h1 : ∀ e' ∈ m₁, j ∉ e'.2 := by
        intro e' he'
        exact hother k e' (by rw [heq]; exact List.mem_append_left _ he')
          j it hjth hksome (hm1 e' he')
      have h2 : ∀ e' ∈ m₂, j ∉ e'.2 := by
        intro e' he'
        refine hother k e'
          (by rw [heq]
              exact List.mem_append_right _ (List.mem_cons_of_mem _ he'))
          j it hjth hksome ?_
        intro hc
        exact hknotm2 (List.mem_map.mpr ⟨e', he', hc⟩)
      rw [heq, foldNil_hit m₁ m₂ _ _ j h1 h2 hjmem]
      have hiff := getLast_occIdxFrom k items 0 j it hjth hksome
      rw [Nat.zero_add] at hiff
      rw [hs', getD_eq, map_getElem_some _ items j it hjth]
      by_cases hc : (items.drop (j + 1)).all (fun x => x.key ≠ some k) = true
      · rw [if_pos (hiff.mpr hc), if_pos hc]
        rw [show (some (it.key.map (fun k => mkPL ko k it.data))).getD none =
          it.key.map (fun k => mkPL ko k it.data) from rfl]
        rw [hksome]
        rfl
      · rw [if_neg (fun hl => hc (hiff.mp hl)), if_neg hc]

theorem addItems_itemIdxs_char (b : BatchOp) (table : String) (ko : Bool)
    (items : List InItem) (hne : items ≠ []) (k : String)
    (hocc : occIdxFrom 0 k items ≠ [])
    (hfresh : assocFind b.itemIdxs (table, k) = none) :
    assocFind (addItems b table items ko).itemIdxs (table, k) =
      some (occIdxFrom 0 k items) := by
  have hni : items.isEmpty = false := by
    cases items with
    | nil => exact absurd rfl hne
    | cons a t => rfl
  rw [addItems_itemIdxs b table items ko hni]
  have hi2 := (addLoop_spec table ko items 0
    ⟨b.itemIdxs, b.unprocIdxs, [], b.errs, []⟩).2.2.1 k
  rw [show addLoop table ko 0 items
      ⟨b.itemIdxs, b.unprocIdxs, [], b.errs, []⟩ = addAcc0 b table ko items
    from rfl] at hi2
  rw [hi2]
  have hres : combineIdx (assocFind b.itemIdxs (table, k))
      (occIdxFrom 0 k items) = some (occIdxFrom 0 k items) := by
    rw [hfresh]
    exact combineIdx_none_ne _ hocc
  exact hres

/-- Claim C3: within one table's slice handed to a batch operation, all
input positions sharing a primary key are merged into one network
slot: the slot of the last occurrence keeps its payload, every earlier
occurrence's slot is nil, and a position whose key did not resolve is
nil as well; every original input index sharing a key is registered
under the key's one slot, and a processed item's callback is fanned
out to exactly those indices in order; in particular the scenario-B
batch of four delete items where positions 0 and 3 share key "kA"
collects exactly the three distinct payloads "kB", "kC", "kA". -/
theorem batch_duplicate_keys_one_slot_fanout (b : BatchOp) (table : String)
    (ko : Bool) (items : List InItem) (hne : items ≠ []) :
    (∃ slots,
      assocFind (addItems b table items ko).unproc table = some slots ∧
      slots.length = items.length ∧
      (∀ j it, items[j]? = some it →
        (it.key = none → slots.getD j none = none) ∧
        (∀ k, it.key = some k →
          slots.getD j none =
            if (items.drop (j + 1)).all (fun x => x.key ≠ some k) = true
            then some (mkPL ko k it.data) else none))) ∧
    (∀ k : String, occIdxFrom 0 k items ≠ [] →
      assocFind b.itemIdxs (table, k) = none →
      assocFind (addItems b table items ko).itemIdxs (table, k) =
        some (occIdxFrom 0 k items)) ∧
    (∀ (k : String) (item : PL) (f : String → Nat → PL → Option DynErr),
      item.key = k → occIdxFrom 0 k items ≠ [] →
      assocFind b.itemIdxs (table, k) = none →
      (processItems (addItems b table items ko) [(table, [item])] []
          (some f)).2 =
        (occIdxFrom 0 k items).map (fun idx => (table, idx, item))) ∧
    (collectItems (addItems newBatchOp "T" scenarioB true) 25 []).1 =
      [("T", [⟨"kB", ""⟩, ⟨"kC", ""⟩, ⟨"kA", ""⟩])] := by
  refine ⟨addItems_slots_char b table ko items hne, ?_, ?_, by decide⟩
  · intro k hocc hfresh
    exact addItems_itemIdxs_char b table ko items hne k hocc hfresh
  · intro k item f hik hocc hfresh
    have hchar := addItems_itemIdxs_char b table ko items hne k hocc hfresh
    have hstep : (processItems (addItems b table items ko) [(table, [item])]
        [] (some f)).2 =
        (fanOut table item
          ((assocFind (addItems b table items ko).itemIdxs
            (table, item.key)).getD [])
          f (addItems b table items ko).errs []).2 := rfl
    rw [hstep, hik, hchar]
    rw [show (some (occIdxFrom 0 k items)).getD ([] : List Nat) =
      occIdxFrom 0 k items from rfl]
    rw [fanOut_applied, List.nil_append]

theorem batch_duplicate_keys_one_slot_fanout_witness :
    scenarioB ≠ [] ∧
    (collectItems (addItems newBatchOp "T" scenarioB true) 25 []).1 =
      [("T", [⟨"kB", ""⟩, ⟨"kC", ""⟩, ⟨"kA", ""⟩])] ∧
    assocFind (addItems newBatchOp "T" scenarioB true).itemIdxs
      ("T", "kA") = some [0, 3] :=
  ⟨by decide,
   (batch_duplicate_keys_one_slot_fanout newBatchOp "T" true scenarioB
     (by decide)).2.2.2,
   ((batch_duplicate_keys_one_slot_fanout newBatchOp "T" true scenarioB
       (by decide)).2.1 "kA" (by decide) (by decide)).trans
     (by decide)⟩

end Dynami
